import Mathlib

/-!
Verification development for the marmot-ts group-messaging library.

The TypeScript sources are shallowly embedded: byte strings become `List Nat`
(each entry below 256), JavaScript strings become `List Char` or `String`,
fallible functions return `Except` or `Option`, and stateful pipelines become
explicit state-passing functions.  Definitions are translated from the
TypeScript sources where those are available; components whose implementation
file is not part of the source snapshot (the group runtime, the group-data
codec, the admin policy callback and the rumor serializer) are modelled from
the specification, and each such definition is marked `Modelled from the
spec:` in its doc comment.
-/

/-- Decidable equality for `Except`, used to evaluate embedded fallible
functions on concrete inputs. -/
def exceptDecEq {ε α : Type} [DecidableEq ε] [DecidableEq α] :
    (x y : Except ε α) → Decidable (x = y)
  | .error e1, .error e2 =>
    if h : e1 = e2 then .isTrue (by rw [h])
    else .isFalse (by intro hc; injection hc; exact h ‹_›)
  | .error _, .ok _ => .isFalse (by intro hc; exact Except.noConfusion hc)
  | .ok _, .error _ => .isFalse (by intro hc; exact Except.noConfusion hc)
  | .ok a1, .ok a2 =>
    if h : a1 = a2 then .isTrue (by rw [h])
    else .isFalse (by intro hc; injection hc; exact h ‹_›)

instance {ε α : Type} [DecidableEq ε] [DecidableEq α] : DecidableEq (Except ε α) :=
  exceptDecEq

namespace Marmot

/-! ## Hex utilities (src/core/credential.ts uses @noble/hashes bytesToHex / hexToBytes) -/

/-- One character of the regex class `[0-9a-fA-F]`. -/
def isHexDigitChar (c : Char) : Bool :=
  (48 ≤ c.toNat && c.toNat ≤ 57) || (97 ≤ c.toNat && c.toNat ≤ 102) ||
    (65 ≤ c.toNat && c.toNat ≤ 70)

/-- Numeric value of a hex digit (0 for non-digits; only used under `isHexDigitChar`). -/
def hexVal (c : Char) : Nat :=
  if 48 ≤ c.toNat && c.toNat ≤ 57 then c.toNat - 48
  else if 97 ≤ c.toNat && c.toNat ≤ 102 then c.toNat - 87
  else if 65 ≤ c.toNat && c.toNat ≤ 70 then c.toNat - 55
  else 0

/-- Lowercase hex digit for a value below 16. -/
def toHexChar (v : Nat) : Char :=
  if v < 10 then Char.ofNat (48 + v) else Char.ofNat (87 + v)

/-- `hexToBytes` from @noble/hashes: parses pairs of hex digits, fails on odd
length or a non-hex character (both cases throw in the original). -/
def hexToBytes : List Char → Option (List Nat)
  | [] => some []
  | c1 :: c2 :: rest =>
    if isHexDigitChar c1 && isHexDigitChar c2 then
      (hexToBytes rest).map (fun t => (16 * hexVal c1 + hexVal c2) :: t)
    else none
  | [_] => none

/-- Two lowercase hex digits of one byte. -/
def byteToHex (b : Nat) : List Char :=
  [toHexChar (b / 16 % 16), toHexChar (b % 16)]

/-- `bytesToHex` from @noble/hashes: lowercase hex of a byte string. -/
def bytesToHex (l : List Nat) : List Char :=
  (l.map byteToHex).flatten

/-- `isHexKey` from src/core/credential.ts: `/^[0-9a-fA-F]{64}$/.test(str)`. -/
def isHexKey (s : List Char) : Bool :=
  s.length == 64 && s.all isHexDigitChar

/-! ### Lemmas about the hex codec -/

theorem hexDigit_lt_128 {c : Char} (hd : isHexDigitChar c = true) : c.toNat < 128 := by
  simp only [isHexDigitChar, Bool.or_eq_true, Bool.and_eq_true, decide_eq_true_eq] at hd
  omega

theorem hexVal_lt_16 {c : Char} (hd : isHexDigitChar c = true) : hexVal c < 16 := by
  simp only [isHexDigitChar, Bool.or_eq_true, Bool.and_eq_true, decide_eq_true_eq] at hd
  unfold hexVal
  split <;> rename_i h1
  · simp only [Bool.and_eq_true, decide_eq_true_eq] at h1
    omega
  · split <;> rename_i h2
    · simp only [Bool.and_eq_true, decide_eq_true_eq] at h2
      omega
    · split <;> rename_i h3
      · simp only [Bool.and_eq_true, decide_eq_true_eq] at h3
        omega
      · omega

/-- Re-rendering a hex digit's value in lowercase gives the lowercased digit. -/
theorem toHexChar_hexVal {c : Char} (h : isHexDigitChar c = true) :
    toHexChar (hexVal c) = c.toLower := by
  simp only [isHexDigitChar, Bool.or_eq_true, Bool.and_eq_true, decide_eq_true_eq] at h
  rcases h with (⟨h1, h2⟩ | ⟨h1, h2⟩) | ⟨h1, h2⟩
  · have hv : hexVal c = c.toNat - 48 := by
      unfold hexVal
      rw [if_pos (by simp only [Bool.and_eq_true, decide_eq_true_eq]; omega)]
    have hl : c.toLower = c := by
      simp only [Char.toLower]
      rw [if_neg (by omega)]
    rw [hv, hl]
    unfold toHexChar
    rw [if_pos (by omega)]
    have e : 48 + (c.toNat - 48) = c.toNat := by omega
    rw [e, Char.ofNat_toNat]
  · have hv : hexVal c = c.toNat - 87 := by
      unfold hexVal
      rw [if_neg (by simp only [Bool.and_eq_true, decide_eq_true_eq]; omega)]
      rw [if_pos (by simp only [Bool.and_eq_true, decide_eq_true_eq]; omega)]
    have hl : c.toLower = c := by
      simp only [Char.toLower]
      rw [if_neg (by omega)]
    rw [hv, hl]
    unfold toHexChar
    rw [if_neg (by omega)]
    have e : 87 + (c.toNat - 87) = c.toNat := by omega
    rw [e, Char.ofNat_toNat]
  · have hv : hexVal c = c.toNat - 55 := by
      unfold hexVal
      rw [if_neg (by simp only [Bool.and_eq_true, decide_eq_true_eq]; omega)]
      rw [if_neg (by simp only [Bool.and_eq_true, decide_eq_true_eq]; omega)]
      rw [if_pos (by simp only [Bool.and_eq_true, decide_eq_true_eq]; omega)]
    have hl : c.toLower = Char.ofNat (c.toNat + 32) := by
      simp only [Char.toLower]
      rw [if_pos ⟨by omega, by omega⟩]
    rw [hv, hl]
    unfold toHexChar
    rw [if_neg (by omega)]
    congr 1
    omega

theorem byteToHex_pair {c1 c2 : Char} (h1 : isHexDigitChar c1 = true)
    (h2 : isHexDigitChar c2 = true) :
    byteToHex (16 * hexVal c1 + hexVal c2) = [c1.toLower, c2.toLower] := by
  have v1 := hexVal_lt_16 h1
  have v2 := hexVal_lt_16 h2
  unfold byteToHex
  have e1 : (16 * hexVal c1 + hexVal c2) / 16 % 16 = hexVal c1 := by omega
  have e2 : (16 * hexVal c1 + hexVal c2) % 16 = hexVal c2 := by omega
  rw [e1, e2, toHexChar_hexVal h1, toHexChar_hexVal h2]

/-- On all-hex even-length input, `hexToBytes` succeeds and `bytesToHex`
undoes it up to lowercasing. -/
theorem hexToBytes_ok (s : List Char) (hall : s.all isHexDigitChar = true)
    (heven : s.length % 2 = 0) :
    ∃ l, hexToBytes s = some l ∧ l.length = s.length / 2 ∧
      bytesToHex l = s.map Char.toLower := by
  induction s using hexToBytes.induct with
  | case1 =>
    exact ⟨[], rfl, rfl, rfl⟩
  | case2 c1 c2 rest hhex ih =>
    simp only [List.all_cons, Bool.and_eq_true] at hall
    obtain ⟨h1, h2, hrest⟩ := hall
    simp only [List.length_cons] at heven
    obtain ⟨l, hl, hlen, hhexl⟩ := ih hrest (by omega)
    refine ⟨(16 * hexVal c1 + hexVal c2) :: l, ?_, ?_, ?_⟩
    · unfold hexToBytes
      rw [if_pos hhex, hl]
      rfl
    · simp only [List.length_cons, hlen]
      omega
    · simp only [bytesToHex, List.map_cons, List.flatten_cons] at hhexl ⊢
      rw [byteToHex_pair h1 h2]
      simp only [List.cons_append, List.nil_append, hhexl]
  | case3 c1 c2 rest hhex =>
    simp only [List.all_cons, Bool.and_eq_true] at hall
    rw [hall.1, hall.2.1] at hhex
    simp at hhex
  | case4 c =>
    simp at heven

theorem length_bytesToHex (l : List Nat) : (bytesToHex l).length = 2 * l.length := by
  induction l with
  | nil => rfl
  | cons b t ih =>
    simp only [bytesToHex] at ih
    simp only [bytesToHex, List.map_cons, List.flatten_cons, List.length_append,
      List.length_cons]
    simp only [byteToHex, List.length_cons, List.length_nil]
    omega

theorem toHexChar_isHexDigit {v : Nat} (h : v < 16) : isHexDigitChar (toHexChar v) = true := by
  interval_cases v <;> decide

theorem bytesToHex_all_hex (l : List Nat) : (bytesToHex l).all isHexDigitChar = true := by
  induction l with
  | nil => rfl
  | cons b t ih =>
    simp only [bytesToHex] at ih
    simp only [bytesToHex, List.map_cons, List.flatten_cons, List.all_append, Bool.and_eq_true]
    refine ⟨?_, ih⟩
    simp only [byteToHex, List.all_cons, List.all_nil, Bool.and_eq_true, Bool.and_true]
    exact ⟨toHexChar_isHexDigit (by omega), toHexChar_isHexDigit (by omega)⟩

/-! ## src/core/credential.ts -/

/-- ts-mls credential types; only `basic` carries a raw identity the library reads. -/
inductive CredentialType
  | basic
  | x509
  deriving DecidableEq

/-- An MLS credential as the library sees it. -/
structure Credential where
  credentialType : CredentialType
  identity : List Nat
  deriving DecidableEq

/-- `createCredential` from src/core/credential.ts: requires a 64-hex-char
public key and stores its raw bytes as the basic-credential identity. -/
def createCredential (pubkey : List Char) : Except String Credential :=
  if isHexKey pubkey = false then
    .error "Invalid nostr public key, must be 64 hex characters"
  else
    match hexToBytes pubkey with
    | some bytes => .ok { credentialType := .basic, identity := bytes }
    | none => .error "Invalid nostr public key, must be 64 hex characters"

/-- The legacy `TextDecoder` is modelled lossily: an ASCII byte decodes to its
character, any byte at or above 128 contributes the replacement character
U+FFFD.  A real `TextDecoder` maps multi-byte sequences to single non-ASCII
characters instead, so on every input the two decoders agree on whether the
result satisfies `isHexKey` (hex keys are pure ASCII), which is the only use
the library makes of the decoded string. -/
def utf8DecodeLossy (l : List Nat) : List Char :=
  l.map (fun b => if b < 128 then Char.ofNat b else Char.ofNat 65533)

/-- `getCredentialPubkey` from src/core/credential.ts (the two `const`
bindings `str` and `decoded` are inlined). -/
def getCredentialPubkey (credential : Credential) : Except String (List Char) :=
  if credential.credentialType ≠ .basic then
    .error "Credential is not a basic credential, cannot get nostr public key"
  else if isHexKey (bytesToHex credential.identity) = false then
    (if isHexKey (utf8DecodeLossy credential.identity) = false then
      .error "Invalid credential nostr public key"
    else .ok (utf8DecodeLossy credential.identity))
  else .ok (bytesToHex credential.identity)

/-! ### Credential lemmas -/

theorem isHexKey_bytesToHex_of_len32 {l : List Nat} (h : l.length = 32) :
    isHexKey (bytesToHex l) = true := by
  simp only [isHexKey, Bool.and_eq_true, beq_iff_eq]
  exact ⟨by rw [length_bytesToHex, h], bytesToHex_all_hex l⟩

theorem isHexKey_bytesToHex_of_ne32 {l : List Nat} (h : l.length ≠ 32) :
    isHexKey (bytesToHex l) = false := by
  simp only [isHexKey, Bool.and_eq_false_iff, beq_eq_false_iff_ne, ne_eq]
  left
  rw [length_bytesToHex]
  omega

theorem utf8DecodeLossy_map_toNat {p : List Char} (h : p.all isHexDigitChar = true) :
    utf8DecodeLossy (p.map Char.toNat) = p := by
  induction p with
  | nil => rfl
  | cons c t ih =>
    simp only [List.all_cons, Bool.and_eq_true] at h
    simp only [utf8DecodeLossy, List.map_cons] at ih ⊢
    rw [if_pos (hexDigit_lt_128 h.1), Char.ofNat_toNat, ih h.2]

end Marmot

namespace Marmot

/--
C10: for every 64-hex-character string `p`, `getCredentialPubkey` after
`createCredential` returns the lowercase hex form of `p`; it also returns `p`
unchanged for a legacy basic credential whose identity is the UTF-8 encoding
of such a hex string; and it fails for non-basic credentials and for
identities that are neither 32 bytes long nor a UTF-8-encoded 64-character
hex string.
-/
theorem getCredentialPubkey_spec :
    (∀ p : List Char, isHexKey p = true →
       ∃ c, createCredential p = .ok c ∧
         getCredentialPubkey c = .ok (p.map Char.toLower)) ∧
    (∀ p : List Char, isHexKey p = true →
       getCredentialPubkey ⟨.basic, p.map Char.toNat⟩ = .ok p) ∧
    (∀ cred : Credential, cred.credentialType ≠ .basic →
       ∃ msg, getCredentialPubkey cred = .error msg) ∧
    (∀ idBytes : List Nat, idBytes.length ≠ 32 →
       isHexKey (utf8DecodeLossy idBytes) = false →
       ∃ msg, getCredentialPubkey ⟨.basic, idBytes⟩ = .error msg) := by
  refine ⟨?_, ?_, ?_, ?_⟩
  · intro p hp
    have hp' := hp
    simp only [isHexKey, Bool.and_eq_true, beq_iff_eq] at hp'
    obtain ⟨hlen, hall⟩ := hp'
    obtain ⟨l, hl, hllen, hlhex⟩ := hexToBytes_ok p hall (by omega)
    refine ⟨⟨.basic, l⟩, ?_, ?_⟩
    · unfold createCredential
      rw [hp]
      simp only [Bool.true_eq_false, if_false, hl]
    · have h32 : l.length = 32 := by omega
      have hkey := isHexKey_bytesToHex_of_len32 h32
      rw [hlhex] at hkey
      simp [getCredentialPubkey, hkey, hlhex]
  · intro p hp
    have hp' := hp
    simp only [isHexKey, Bool.and_eq_true, beq_iff_eq] at hp'
    obtain ⟨hlen, hall⟩ := hp'
    have hne : (p.map Char.toNat).length ≠ 32 := by
      simp only [List.length_map]
      omega
    have hkey := isHexKey_bytesToHex_of_ne32 hne
    simp [getCredentialPubkey, hkey, utf8DecodeLossy_map_toNat hall, hp]
  · intro cred hcred
    refine ⟨"Credential is not a basic credential, cannot get nostr public key", ?_⟩
    unfold getCredentialPubkey
    rw [if_pos hcred]
  · intro idBytes hlen hdec
    have hkey := isHexKey_bytesToHex_of_ne32 hlen
    refine ⟨"Invalid credential nostr public key", ?_⟩
    simp [getCredentialPubkey, hkey, hdec]

/-- Witness: the hex key of 64 `a` characters goes through the round trip. -/
theorem getCredentialPubkey_spec_witness :
    isHexKey (List.replicate 64 'a') = true ∧
    ∃ c, createCredential (List.replicate 64 'a') = .ok c ∧
      getCredentialPubkey c = .ok ((List.replicate 64 'a').map Char.toLower) :=
  ⟨by decide, getCredentialPubkey_spec.1 (List.replicate 64 'a') (by decide)⟩

/-! ## src/utils/cursor.ts -/

/-- The composite outer-event cursor `(created_at, id)`. -/
structure OuterCursor where
  created_at : Int
  id : List Char
  deriving DecidableEq

/-- `compareCursor` from src/utils/cursor.ts. -/
def compareCursor (a b : OuterCursor) : Int :=
  if a.created_at ≠ b.created_at then
    (if a.created_at < b.created_at then -1 else 1)
  else if a.id = b.id then 0
  else if a.id < b.id then -1 else 1

/-- Strict composite order, the update condition written out in the in-repo
history backends (`markOuterEventProcessed` of `MemoryHistoryBackend` in
src/__tests__/helpers and of the `MemoryHistoryStore` test stores). -/
def cursorLtP (a b : OuterCursor) : Prop :=
  a.created_at < b.created_at ∨ (a.created_at = b.created_at ∧ a.id < b.id)

instance (a b : OuterCursor) : Decidable (cursorLtP a b) := by
  unfold cursorLtP
  infer_instance

/-- `markOuterEventProcessed` as implemented by the repository's history
backends: keep the maximum of the stored cursor and the new cursor under the
composite ordering. -/
def markOuterEventProcessed : Option OuterCursor → OuterCursor → Option OuterCursor
  | none, outer => some outer
  | some p, outer => if cursorLtP p outer then some outer else some p

theorem compareCursor_nonpos_iff (a b : OuterCursor) :
    compareCursor a b ≤ 0 ↔
      (a.created_at < b.created_at ∨ (a.created_at = b.created_at ∧ a.id ≤ b.id)) := by
  unfold compareCursor
  split_ifs with h1 h2 h3 h4
  · exact iff_of_true (by norm_num) (Or.inl h2)
  · refine iff_of_false (by norm_num) ?_
    rintro (hcontra | ⟨hcontra, -⟩)
    · exact h2 hcontra
    · exact h1 hcontra
  · exact iff_of_true (le_refl _) (Or.inr ⟨not_ne_iff.mp h1, le_of_eq (by rw [h3])⟩)
  · exact iff_of_true (by norm_num) (Or.inr ⟨not_ne_iff.mp h1, le_of_lt h4⟩)
  · refine iff_of_false (by norm_num) ?_
    rintro (hcontra | ⟨-, hcontra⟩)
    · exact h1 (ne_of_lt hcontra)
    · exact h4 (lt_of_le_of_ne hcontra h3)

theorem markOuterEventProcessed_le (p m : OuterCursor) :
    ∃ r, markOuterEventProcessed (some p) m = some r ∧ compareCursor p r ≤ 0 := by
  by_cases hlt : cursorLtP p m
  · refine ⟨m, by simp [markOuterEventProcessed, hlt], ?_⟩
    rw [compareCursor_nonpos_iff]
    rcases hlt with hlt | ⟨heq, hid⟩
    · exact Or.inl hlt
    · exact Or.inr ⟨heq, le_of_lt hid⟩
  · refine ⟨p, by simp [markOuterEventProcessed, hlt], ?_⟩
    rw [compareCursor_nonpos_iff]
    exact Or.inr ⟨rfl, le_refl _⟩

theorem compareCursor_nonpos_trans {a b c : OuterCursor}
    (hab : compareCursor a b ≤ 0) (hbc : compareCursor b c ≤ 0) :
    compareCursor a c ≤ 0 := by
  rw [compareCursor_nonpos_iff] at hab hbc ⊢
  rcases hab with hab | ⟨hab, hab2⟩ <;> rcases hbc with hbc | ⟨hbc, hbc2⟩
  · exact Or.inl (lt_trans hab hbc)
  · exact Or.inl (hbc ▸ hab)
  · exact Or.inl (hab ▸ hbc)
  · exact Or.inr ⟨hab.trans hbc, le_trans hab2 hbc2⟩

/-- Folding marks over a stored cursor never decreases it. -/
theorem foldl_mark_mono (marks : List OuterCursor) :
    ∀ (p q : OuterCursor),
      List.foldl markOuterEventProcessed (some p) marks = some q →
      compareCursor p q ≤ 0 := by
  induction marks with
  | nil =>
    intro p q hq
    simp only [List.foldl_nil, Option.some.injEq] at hq
    rw [hq, compareCursor_nonpos_iff]
    exact Or.inr ⟨rfl, le_refl _⟩
  | cons m rest ih =>
    intro p q hq
    obtain ⟨r, hr, hpr⟩ := markOuterEventProcessed_le p m
    simp only [List.foldl_cons, hr] at hq
    exact compareCursor_nonpos_trans hpr (ih r q hq)

/--
C4: the resume cursor maintained by `markOuterEventProcessed` is
non-decreasing under `compareCursor` over any sequence of marks, and marking a
cursor that is not greater than the current resume cursor leaves it unchanged.
-/
theorem resume_cursor_monotonic :
    (∀ (marks : List OuterCursor) (p q : OuterCursor),
       List.foldl markOuterEventProcessed (some p) marks = some q →
       compareCursor p q ≤ 0) ∧
    (∀ p outer, compareCursor outer p ≤ 0 →
       markOuterEventProcessed (some p) outer = some p) := by
  constructor
  · intro marks
    exact foldl_mark_mono marks
  · intro p outer hle
    have hnot : ¬ cursorLtP p outer := by
      rw [compareCursor_nonpos_iff] at hle
      unfold cursorLtP
      rcases hle with hlt | ⟨heq, hid⟩
      · rintro (hc | ⟨hc, -⟩)
        · exact absurd (lt_trans hlt hc) (lt_irrefl _)
        · rw [hc] at hlt
          exact absurd hlt (lt_irrefl _)
      · rintro (hc | ⟨-, hc⟩)
        · rw [heq] at hc
          exact absurd hc (lt_irrefl _)
        · exact absurd (lt_of_le_of_lt hid hc) (lt_irrefl _)
    simp [markOuterEventProcessed, hnot]

/-- Witness for C4: marking `(10,"b")`, `(10,"a")`, `(11,"a")` in order keeps
the cursor at the composite maximum, and re-marking a smaller cursor is a
no-op. -/
theorem resume_cursor_monotonic_witness :
    (List.foldl markOuterEventProcessed (some ⟨10, ['b']⟩)
        [⟨10, ['a']⟩, ⟨11, ['a']⟩] = some ⟨11, ['a']⟩ ∧
      compareCursor ⟨10, ['b']⟩ ⟨11, ['a']⟩ ≤ 0) ∧
    (compareCursor ⟨10, ['a']⟩ ⟨11, ['a']⟩ ≤ 0 ∧
      markOuterEventProcessed (some ⟨11, ['a']⟩) ⟨10, ['a']⟩ = some ⟨11, ['a']⟩) :=
  ⟨⟨by decide,
      resume_cursor_monotonic.1 [⟨10, ['a']⟩, ⟨11, ['a']⟩] ⟨10, ['b']⟩ ⟨11, ['a']⟩ (by decide)⟩,
    by decide,
    resume_cursor_monotonic.2 ⟨11, ['a']⟩ ⟨10, ['a']⟩ (by decide)⟩

/-! ## Insertion sort on a boolean relation

The ingest pipeline sorts events by the composite cursor and commits by
`(mls_epoch, created_at, id)`; this is the sorting routine used for both. -/

/-- Insert `a` in front of the first element it is `le`-below. -/
def insertLe {α : Type} (le : α → α → Bool) (a : α) : List α → List α
  | [] => [a]
  | b :: t => if le a b then a :: b :: t else b :: insertLe le a t

/-- Insertion sort by a boolean relation. -/
def sortLe {α : Type} (le : α → α → Bool) : List α → List α
  | [] => []
  | a :: t => insertLe le a (sortLe le t)

theorem perm_insertLe {α : Type} (le : α → α → Bool) (a : α) (l : List α) :
    (insertLe le a l).Perm (a :: l) := by
  induction l with
  | nil => exact List.Perm.refl _
  | cons b t ih =>
    unfold insertLe
    by_cases hle : le a b = true
    · rw [if_pos hle]
    · rw [if_neg hle]
      exact (ih.cons b).trans (List.Perm.swap a b t)

theorem perm_sortLe {α : Type} (le : α → α → Bool) (l : List α) :
    (sortLe le l).Perm l := by
  induction l with
  | nil => exact List.Perm.refl _
  | cons a t ih =>
    unfold sortLe
    exact (perm_insertLe le a (sortLe le t)).trans (ih.cons a)

theorem mem_insertLe {α : Type} (le : α → α → Bool) (a x : α) (l : List α) :
    x ∈ insertLe le a l ↔ x = a ∨ x ∈ l := by
  rw [(perm_insertLe le a l).mem_iff, List.mem_cons]

theorem mem_sortLe {α : Type} (le : α → α → Bool) (x : α) (l : List α) :
    x ∈ sortLe le l ↔ x ∈ l :=
  (perm_sortLe le l).mem_iff

theorem sorted_insertLe {α : Type} {le : α → α → Bool}
    (htot : ∀ a b, le a b = true ∨ le b a = true)
    (htrans : ∀ a b c, le a b = true → le b c = true → le a c = true)
    (a : α) {l : List α} (hs : l.Pairwise (fun x y => le x y = true)) :
    (insertLe le a l).Pairwise (fun x y => le x y = true) := by
  induction l with
  | nil => exact List.pairwise_singleton _ a
  | cons b t ih =>
    rw [List.pairwise_cons] at hs
    obtain ⟨hb, ht⟩ := hs
    unfold insertLe
    by_cases hle : le a b = true
    · rw [if_pos hle]
      rw [List.pairwise_cons]
      refine ⟨?_, List.pairwise_cons.mpr ⟨hb, ht⟩⟩
      intro x hx
      rcases List.mem_cons.mp hx with rfl | hx
      · exact hle
      · exact htrans a b x hle (hb x hx)
    · rw [if_neg hle]
      rw [List.pairwise_cons]
      refine ⟨?_, ih ht⟩
      intro x hx
      rcases (mem_insertLe le a x t).mp hx with rfl | hx
      · rcases htot x b with h | h
        · exact absurd h hle
        · exact h
      · exact hb x hx

theorem sorted_sortLe {α : Type} {le : α → α → Bool}
    (htot : ∀ a b, le a b = true ∨ le b a = true)
    (htrans : ∀ a b c, le a b = true → le b c = true → le a c = true)
    (l : List α) : (sortLe le l).Pairwise (fun x y => le x y = true) := by
  induction l with
  | nil => exact List.Pairwise.nil
  | cons a t ih =>
    exact sorted_insertLe htot htrans a ih

/-- Two sorted lists that are permutations of each other are equal, as long as
`le` is antisymmetric on their elements. -/
theorem sorted_perm_eq {α : Type} {le : α → α → Bool} :
    ∀ {l₁ l₂ : List α},
      (∀ a, a ∈ l₁ → ∀ b, b ∈ l₂ → le a b = true → le b a = true → a = b) →
      l₁.Perm l₂ →
      l₁.Pairwise (fun x y => le x y = true) →
      l₂.Pairwise (fun x y => le x y = true) → l₁ = l₂
  | [], l₂, _, hp, _, _ => (hp.nil_eq).symm ▸ rfl
  | a :: t₁, [], _, hp, _, _ => absurd (hp.symm.nil_eq) (by simp)
  | a :: t₁, b :: t₂, hanti, hp, hs₁, hs₂ => by
    rw [List.pairwise_cons] at hs₁ hs₂
    obtain ⟨ha1, hs₁'⟩ := hs₁
    obtain ⟨hb1, hs₂'⟩ := hs₂
    have hab : a = b := by
      by_cases heq : a = b
      · exact heq
      · have hamem : a ∈ b :: t₂ := hp.mem_iff.mp (List.mem_cons_self a t₁)
        have hbmem : b ∈ a :: t₁ := hp.mem_iff.mpr (List.mem_cons_self b t₂)
        have hat2 : a ∈ t₂ := by
          rcases List.mem_cons.mp hamem with h | h
          · exact absurd h heq
          · exact h
        have hbt1 : b ∈ t₁ := by
          rcases List.mem_cons.mp hbmem with h | h
          · exact absurd h.symm heq
          · exact h
        exact hanti a (List.mem_cons_self a t₁) b (List.mem_cons_self b t₂)
          (ha1 b hbt1) (hb1 a hat2)
    subst hab
    have hp' : t₁.Perm t₂ := hp.cons_inv
    have hanti' : ∀ x, x ∈ t₁ → ∀ y, y ∈ t₂ → le x y = true → le y x = true → x = y :=
      fun x hx y hy => hanti x (List.mem_cons_of_mem a hx) y (List.mem_cons_of_mem a hy)
    rw [sorted_perm_eq hanti' hp' hs₁' hs₂']

/-! ## Group runtime ingest

Modelled from the spec: `MarmotGroup.ingest` lives in
src/client/group/marmot-group.ts, which is not part of the source snapshot
(only its tests and the planning document are).  The pipeline below follows
spec §4.9: dedupe by outer id against the processed set, classify each event,
apply non-commits in composite-cursor order, order commits by
`(mls_epoch, created_at, id)` and apply them sequentially (a commit applies
only when it targets the current epoch, advancing it by one), record every
classified event as processed, and advance the resume cursor to the greatest
classified outer cursor. -/

/-- Modelled from the spec: the classification of a decrypted outer group
event (spec §4.9 step 2).  Decryption is the MLS provider's work, so each
event carries its classification; an application event carries the id of the
rumor it deserializes to. -/
inductive EventBody
  | application (rumorId : List Char)
  | commit (mlsEpoch : Nat)
  | proposal
  | unreadable
  deriving DecidableEq

/-- Modelled from the spec: an outer `kind 445` group event as ingest sees it. -/
structure OuterEvent where
  id : List Char
  created_at : Int
  body : EventBody
  deriving DecidableEq

/-- The outer cursor of an event. -/
def cursorOf (e : OuterEvent) : OuterCursor :=
  ⟨e.created_at, e.id⟩

/-- Composite `(created_at, id)` order on outer events. -/
def eventLe (a b : OuterEvent) : Bool :=
  decide (a.created_at < b.created_at) ||
    (a.created_at == b.created_at && decide (a.id ≤ b.id))

/-- A commit extracted from an outer event: MLS epoch plus outer cursor. -/
structure CommitInfo where
  mlsEpoch : Nat
  created_at : Int
  id : List Char
  deriving DecidableEq

/-- The `(mls_epoch, created_at, id)` ascending commit order (spec §4.9 step 4). -/
def commitLe (a b : CommitInfo) : Bool :=
  decide (a.mlsEpoch < b.mlsEpoch) ||
    (a.mlsEpoch == b.mlsEpoch &&
      (decide (a.created_at < b.created_at) ||
        (a.created_at == b.created_at && decide (a.id ≤ b.id))))

/-- Strict `(mls_epoch, created_at, id)` commit order. -/
def commitLt (a b : CommitInfo) : Bool :=
  decide (a.mlsEpoch < b.mlsEpoch) ||
    (a.mlsEpoch == b.mlsEpoch &&
      (decide (a.created_at < b.created_at) ||
        (a.created_at == b.created_at && decide (a.id < b.id))))

/-- The commit carried by an outer event, if any. -/
def commitOf (e : OuterEvent) : Option CommitInfo :=
  match e.body with
  | .commit ep => some ⟨ep, e.created_at, e.id⟩
  | _ => none

/-- The rumor id carried by an application event, if any. -/
def rumorIdOf (e : OuterEvent) : Option (List Char) :=
  match e.body with
  | .application rid => some rid
  | _ => none

/-- Modelled from the spec: apply commits sequentially (spec §4.9 step 5).  A
commit targeting the current epoch applies and advances the epoch by one;
every other commit is dropped with the state unchanged.  Returns the final
epoch and the per-commit outcome trace (`true` = applied). -/
def runCommits : Nat → List CommitInfo → Nat × List (CommitInfo × Bool)
  | e, [] => (e, [])
  | e, c :: rest =>
    if c.mlsEpoch = e then
      let r := runCommits (e + 1) rest
      (r.1, (c, true) :: r.2)
    else
      let r := runCommits e rest
      (r.1, (c, false) :: r.2)

/-- The commit phase of ingest: sort by `(mls_epoch, created_at, id)` and
apply sequentially. -/
def ingestCommitTrace (e0 : Nat) (cs : List CommitInfo) : Nat × List (CommitInfo × Bool) :=
  runCommits e0 (sortLe commitLe cs)

/-- Deduplication worker: keep the first event per outer id, tracking the
ids already seen. -/
def dedupeSeen : List OuterEvent → List (List Char) → List OuterEvent
  | [], _ => []
  | e :: rest, seen =>
    if e.id ∈ seen then dedupeSeen rest seen
    else e :: dedupeSeen rest (e.id :: seen)

/-- Keep the first event per outer id against an in-memory seen-set
(spec §4.9 step 1 deduplication). -/
def dedupeById (l : List OuterEvent) : List OuterEvent :=
  dedupeSeen l []

/-- Modelled from the spec: the per-group state ingest reads and writes — the
MLS epoch (standing for the persisted MLS snapshot), the processed outer-id
set, the persisted rumor ids, and the resume cursor. -/
structure IngestState where
  epoch : Nat
  processed : List (List Char)
  rumors : List (List Char)
  resume : Option OuterCursor
  deriving DecidableEq

/-- `addRumor` of the history store: idempotent on the rumor id. -/
def addRumorId (rs : List (List Char)) (rid : List Char) : List (List Char) :=
  if rid ∈ rs then rs else rs ++ [rid]

/-- Modelled from the spec: one `MarmotGroup.ingest` batch (spec §4.9). -/
def ingestBatch (s : IngestState) (batch : List OuterEvent) : IngestState :=
  let fresh := dedupeById (batch.filter (fun e => !(decide (e.id ∈ s.processed))))
  let freshSorted := sortLe eventLe fresh
  let rumors1 := (freshSorted.filterMap rumorIdOf).foldl addRumorId s.rumors
  let commits := sortLe commitLe (freshSorted.filterMap commitOf)
  let epoch1 := (runCommits s.epoch commits).1
  let processed1 := s.processed ++ freshSorted.map (fun e => e.id)
  let resume1 := (freshSorted.map cursorOf).foldl markOuterEventProcessed s.resume
  ⟨epoch1, processed1, rumors1, resume1⟩

/-! ### Order facts for the commit and cursor orders -/

/-- Propositional form of `commitLe`. -/
def commitLeP (a b : CommitInfo) : Prop :=
  a.mlsEpoch < b.mlsEpoch ∨
    (a.mlsEpoch = b.mlsEpoch ∧
      (a.created_at < b.created_at ∨ (a.created_at = b.created_at ∧ a.id ≤ b.id)))

theorem commitLe_iff (a b : CommitInfo) : commitLe a b = true ↔ commitLeP a b := by
  unfold commitLe commitLeP
  simp only [Bool.or_eq_true, Bool.and_eq_true, decide_eq_true_eq, beq_iff_eq]

/-- Propositional form of `commitLt`. -/
def commitLtP (a b : CommitInfo) : Prop :=
  a.mlsEpoch < b.mlsEpoch ∨
    (a.mlsEpoch = b.mlsEpoch ∧
      (a.created_at < b.created_at ∨ (a.created_at = b.created_at ∧ a.id < b.id)))

theorem commitLt_iff (a b : CommitInfo) : commitLt a b = true ↔ commitLtP a b := by
  unfold commitLt commitLtP
  simp only [Bool.or_eq_true, Bool.and_eq_true, decide_eq_true_eq, beq_iff_eq]

theorem commitLe_total (a b : CommitInfo) : commitLe a b = true ∨ commitLe b a = true := by
  rw [commitLe_iff, commitLe_iff]
  unfold commitLeP
  rcases lt_trichotomy a.mlsEpoch b.mlsEpoch with h | h | h
  · exact Or.inl (Or.inl h)
  · rcases lt_trichotomy a.created_at b.created_at with h2 | h2 | h2
    · exact Or.inl (Or.inr ⟨h, Or.inl h2⟩)
    · rcases le_total a.id b.id with h3 | h3
      · exact Or.inl (Or.inr ⟨h, Or.inr ⟨h2, h3⟩⟩)
      · exact Or.inr (Or.inr ⟨h.symm, Or.inr ⟨h2.symm, h3⟩⟩)
    · exact Or.inr (Or.inr ⟨h.symm, Or.inl h2⟩)
  · exact Or.inr (Or.inl h)

theorem commitLe_trans (a b c : CommitInfo)
    (hab : commitLe a b = true) (hbc : commitLe b c = true) : commitLe a c = true := by
  rw [commitLe_iff] at hab hbc ⊢
  unfold commitLeP at hab hbc ⊢
  rcases hab with hab | ⟨he1, hab⟩
  · rcases hbc with hbc | ⟨he2, -⟩
    · exact Or.inl (lt_trans hab hbc)
    · exact Or.inl (he2 ▸ hab)
  · rcases hbc with hbc | ⟨he2, hbc⟩
    · exact Or.inl (he1 ▸ hbc)
    · refine Or.inr ⟨he1.trans he2, ?_⟩
      rcases hab with hab | ⟨hc1, hab⟩
      · rcases hbc with hbc | ⟨hc2, -⟩
        · exact Or.inl (lt_trans hab hbc)
        · exact Or.inl (hc2 ▸ hab)
      · rcases hbc with hbc | ⟨hc2, hbc⟩
        · exact Or.inl (hc1 ▸ hbc)
        · exact Or.inr ⟨hc1.trans hc2, le_trans hab hbc⟩

theorem commitLt_of_le_of_ne_id {a b : CommitInfo} (hle : commitLe a b = true)
    (hid : a.id ≠ b.id) : commitLt a b = true := by
  rw [commitLe_iff] at hle
  rw [commitLt_iff]
  unfold commitLeP at hle
  unfold commitLtP
  rcases hle with h | ⟨he, h | ⟨hc, hid2⟩⟩
  · exact Or.inl h
  · exact Or.inr ⟨he, Or.inl h⟩
  · exact Or.inr ⟨he, Or.inr ⟨hc, lt_of_le_of_ne hid2 hid⟩⟩

/-- Propositional form of `eventLe`. -/
def eventLeP (a b : OuterEvent) : Prop :=
  a.created_at < b.created_at ∨ (a.created_at = b.created_at ∧ a.id ≤ b.id)

theorem eventLe_iff (a b : OuterEvent) : eventLe a b = true ↔ eventLeP a b := by
  unfold eventLe eventLeP
  simp only [Bool.or_eq_true, Bool.and_eq_true, decide_eq_true_eq, beq_iff_eq]

theorem eventLe_total (a b : OuterEvent) : eventLe a b = true ∨ eventLe b a = true := by
  rw [eventLe_iff, eventLe_iff]
  unfold eventLeP
  rcases lt_trichotomy a.created_at b.created_at with h | h | h
  · exact Or.inl (Or.inl h)
  · rcases le_total a.id b.id with h2 | h2
    · exact Or.inl (Or.inr ⟨h, h2⟩)
    · exact Or.inr (Or.inr ⟨h.symm, h2⟩)
  · exact Or.inr (Or.inl h)

theorem eventLe_trans (a b c : OuterEvent)
    (hab : eventLe a b = true) (hbc : eventLe b c = true) : eventLe a c = true := by
  rw [eventLe_iff] at hab hbc ⊢
  unfold eventLeP at hab hbc ⊢
  rcases hab with hab | ⟨he1, hab⟩
  · rcases hbc with hbc | ⟨he2, -⟩
    · exact Or.inl (lt_trans hab hbc)
    · exact Or.inl (he2 ▸ hab)
  · rcases hbc with hbc | ⟨he2, hbc⟩
    · exact Or.inl (he1 ▸ hbc)
    · exact Or.inr ⟨he1.trans he2, le_trans hab hbc⟩

/-! ### Facts about the sequential commit application -/

theorem runCommits_map_fst (e : Nat) (cs : List CommitInfo) :
    ((runCommits e cs).2.map Prod.fst) = cs := by
  induction cs generalizing e with
  | nil => rfl
  | cons c rest ih =>
    unfold runCommits
    by_cases hc : c.mlsEpoch = e
    · simp only [if_pos hc, List.map_cons, ih]
    · simp only [if_neg hc, List.map_cons, ih]

theorem runCommits_applied_ge (e : Nat) (cs : List CommitInfo) :
    ∀ c, (c, true) ∈ (runCommits e cs).2 → e ≤ c.mlsEpoch := by
  induction cs generalizing e with
  | nil =>
    intro c hmem
    simp [runCommits] at hmem
  | cons x rest ih =>
    intro c hmem
    unfold runCommits at hmem
    by_cases hx : x.mlsEpoch = e
    · simp only [if_pos hx, List.mem_cons, Prod.mk.injEq] at hmem
      rcases hmem with ⟨rfl, -⟩ | hmem
      · exact le_of_eq hx.symm
      · exact le_of_lt (lt_of_lt_of_le (Nat.lt_succ_self e) (ih (e + 1) c hmem))
    · simp only [if_neg hx, List.mem_cons, Prod.mk.injEq] at hmem
      rcases hmem with ⟨-, hcontra⟩ | hmem
      · exact absurd hcontra (by simp)
      · exact ih e c hmem

theorem runCommits_dropped_of_lt (e : Nat) (cs : List CommitInfo) :
    ∀ c, c ∈ cs → c.mlsEpoch < e → (c, false) ∈ (runCommits e cs).2 := by
  induction cs generalizing e with
  | nil =>
    intro c hmem
    simp at hmem
  | cons x rest ih =>
    intro c hmem hlt
    unfold runCommits
    rcases List.mem_cons.mp hmem with rfl | hmem
    · have hx : c.mlsEpoch ≠ e := ne_of_lt hlt
      simp only [if_neg hx, List.mem_cons]
      exact Or.inl trivial
    · by_cases hx : x.mlsEpoch = e
      · simp only [if_pos hx, List.mem_cons]
        exact Or.inr (ih (e + 1) c hmem (lt_trans hlt (Nat.lt_succ_self e)))
      · simp only [if_neg hx, List.mem_cons]
        exact Or.inr (ih e c hmem hlt)

theorem runCommits_countP_zero (e0 e : Nat) (cs : List CommitInfo) (h : e0 < e) :
    ((runCommits e cs).2.countP (fun p => p.2 && p.1.mlsEpoch == e0)) = 0 := by
  induction cs generalizing e with
  | nil => rfl
  | cons x rest ih =>
    unfold runCommits
    by_cases hx : x.mlsEpoch = e
    · simp only [if_pos hx, List.countP_cons]
      rw [ih (e + 1) (lt_trans h (Nat.lt_succ_self e))]
      simp only [Bool.true_and, beq_iff_eq, hx]
      rw [if_neg (by omega)]
    · simp only [if_neg hx, List.countP_cons]
      rw [ih e h]
      simp

/-- The commit-race invariant over a sorted duplicate-free commit list. -/
theorem runCommits_race (e0 : Nat) (ss : List CommitInfo)
    (hsort : ss.Pairwise (fun x y => commitLe x y = true))
    (hids : ss.Pairwise (fun x y => x.id ≠ y.id))
    (hex : ∃ c, c ∈ ss ∧ c.mlsEpoch = e0) :
    ∃ w, w ∈ ss ∧ w.mlsEpoch = e0 ∧
      (∀ c, c ∈ ss → c.mlsEpoch = e0 → c.id ≠ w.id → commitLt w c = true) ∧
      (w, true) ∈ (runCommits e0 ss).2 ∧
      (∀ c, c ∈ ss → c.mlsEpoch = e0 → c.id ≠ w.id → (c, false) ∈ (runCommits e0 ss).2) ∧
      ((runCommits e0 ss).2.countP (fun p => p.2 && p.1.mlsEpoch == e0)) = 1 := by
  induction ss with
  | nil =>
    obtain ⟨c, hmem, -⟩ := hex
    simp at hmem
  | cons x rest ih =>
    rw [List.pairwise_cons] at hsort hids
    obtain ⟨hxle, hsort'⟩ := hsort
    obtain ⟨hxid, hids'⟩ := hids
    by_cases hx : x.mlsEpoch = e0
    · refine ⟨x, List.mem_cons_self x rest, hx, ?_, ?_, ?_, ?_⟩
      · intro c hc hce hcid
        rcases List.mem_cons.mp hc with rfl | hc
        · exact absurd rfl hcid.symm
        · exact commitLt_of_le_of_ne_id (hxle c hc) (fun h => hcid (h.symm))
      · unfold runCommits
        simp only [if_pos hx, List.mem_cons]
        exact Or.inl trivial
      · intro c hc hce hcid
        rcases List.mem_cons.mp hc with rfl | hc
        · exact absurd rfl hcid.symm
        · unfold runCommits
          simp only [if_pos hx, List.mem_cons]
          exact Or.inr (runCommits_dropped_of_lt (e0 + 1) rest c hc (by omega))
      · unfold runCommits
        simp only [if_pos hx, List.countP_cons]
        rw [runCommits_countP_zero e0 (e0 + 1) rest (Nat.lt_succ_self e0)]
        simp [hx]
    · obtain ⟨c0, hc0mem, hc0⟩ := hex
      have hc0rest : c0 ∈ rest := by
        rcases List.mem_cons.mp hc0mem with rfl | h
        · exact absurd hc0 hx
        · exact h
      obtain ⟨w, hwmem, hwe, hwmin, hwapp, hwlose, hwcount⟩ :=
        ih hsort' hids' ⟨c0, hc0rest, hc0⟩
      refine ⟨w, List.mem_cons_of_mem x hwmem, hwe, ?_, ?_, ?_, ?_⟩
      · intro c hc hce hcid
        rcases List.mem_cons.mp hc with rfl | hc
        · exact absurd hce hx
        · exact hwmin c hc hce hcid
      · unfold runCommits
        simp only [if_neg hx, List.mem_cons]
        exact Or.inr hwapp
      · intro c hc hce hcid
        rcases List.mem_cons.mp hc with rfl | hc
        · exact absurd hce hx
        · unfold runCommits
          simp only [if_neg hx, List.mem_cons]
          exact Or.inr (hwlose c hc hce hcid)
      · unfold runCommits
        simp only [if_neg hx, List.countP_cons]
        rw [hwcount]
        simp

/--
C1: ingest orders the batch's commits ascending by
`(mls_epoch, created_at, id)` (the trace is over a sorted permutation of the
commits); among the commits targeting a contested epoch `e0`, the first one in
that order applies and advances the epoch, every later same-epoch commit is
dropped with the state unchanged, and the epoch advances exactly once for the
contested value.
-/
theorem ingest_commit_race (e0 : Nat) (cs : List CommitInfo)
    (hids : cs.Pairwise (fun a b => a.id ≠ b.id))
    (hex : ∃ c, c ∈ cs ∧ c.mlsEpoch = e0) :
    ((sortLe commitLe cs).Perm cs ∧
      (sortLe commitLe cs).Pairwise (fun x y => commitLe x y = true)) ∧
    ∃ w, w ∈ cs ∧ w.mlsEpoch = e0 ∧
      (∀ c, c ∈ cs → c.mlsEpoch = e0 → c.id ≠ w.id → commitLt w c = true) ∧
      (w, true) ∈ (ingestCommitTrace e0 cs).2 ∧
      (∀ c, c ∈ cs → c.mlsEpoch = e0 → c.id ≠ w.id →
        (c, false) ∈ (ingestCommitTrace e0 cs).2) ∧
      ((ingestCommitTrace e0 cs).2.countP (fun p => p.2 && p.1.mlsEpoch == e0)) = 1 := by
  have hperm := perm_sortLe commitLe cs
  have hsorted := sorted_sortLe commitLe_total commitLe_trans cs
  have hids' : (sortLe commitLe cs).Pairwise (fun a b => a.id ≠ b.id) :=
    (hperm.pairwise_iff (fun hxy => Ne.symm hxy)).mpr hids
  obtain ⟨c0, hc0, hc0e⟩ := hex
  obtain ⟨w, hwmem, hwe, hwmin, hwapp, hwlose, hwcount⟩ :=
    runCommits_race e0 (sortLe commitLe cs) hsorted hids'
      ⟨c0, hperm.mem_iff.mpr hc0, hc0e⟩
  refine ⟨⟨hperm, hsorted⟩, w, hperm.mem_iff.mp hwmem, hwe, ?_, hwapp, ?_, hwcount⟩
  · intro c hc hce hcid
    exact hwmin c (hperm.mem_iff.mpr hc) hce hcid
  · intro c hc hce hcid
    exact hwlose c (hperm.mem_iff.mpr hc) hce hcid

/-- Witness for C1: the S2 race — two commits for epoch 5 at the same
timestamp, arriving loser-first; the commit with the smaller id is applied,
the other is dropped, and the epoch advances to 6 exactly once. -/
theorem ingest_commit_race_witness :
    ([⟨5, 100, ['b', 'b']⟩, ⟨5, 100, ['a', 'a']⟩] :
        List CommitInfo).Pairwise (fun a b => a.id ≠ b.id) ∧
    (∃ c, c ∈ ([⟨5, 100, ['b', 'b']⟩, ⟨5, 100, ['a', 'a']⟩] : List CommitInfo) ∧
      c.mlsEpoch = 5) ∧
    (∃ w, w ∈ ([⟨5, 100, ['b', 'b']⟩, ⟨5, 100, ['a', 'a']⟩] : List CommitInfo) ∧
      w.mlsEpoch = 5 ∧
      (∀ c, c ∈ ([⟨5, 100, ['b', 'b']⟩, ⟨5, 100, ['a', 'a']⟩] : List CommitInfo) →
        c.mlsEpoch = 5 → c.id ≠ w.id → commitLt w c = true) ∧
      (w, true) ∈ (ingestCommitTrace 5 [⟨5, 100, ['b', 'b']⟩, ⟨5, 100, ['a', 'a']⟩]).2 ∧
      (∀ c, c ∈ ([⟨5, 100, ['b', 'b']⟩, ⟨5, 100, ['a', 'a']⟩] : List CommitInfo) →
        c.mlsEpoch = 5 → c.id ≠ w.id →
        (c, false) ∈ (ingestCommitTrace 5 [⟨5, 100, ['b', 'b']⟩, ⟨5, 100, ['a', 'a']⟩]).2) ∧
      ((ingestCommitTrace 5 [⟨5, 100, ['b', 'b']⟩, ⟨5, 100, ['a', 'a']⟩]).2.countP
        (fun p => p.2 && p.1.mlsEpoch == 5)) = 1) ∧
    (ingestCommitTrace 5 [⟨5, 100, ['b', 'b']⟩, ⟨5, 100, ['a', 'a']⟩]).1 = 6 ∧
    (ingestCommitTrace 5 [⟨5, 100, ['b', 'b']⟩, ⟨5, 100, ['a', 'a']⟩]).2 =
      [(⟨5, 100, ['a', 'a']⟩, true), (⟨5, 100, ['b', 'b']⟩, false)] :=
  ⟨by decide, by decide,
    (ingest_commit_race 5 [⟨5, 100, ['b', 'b']⟩, ⟨5, 100, ['a', 'a']⟩]
      (by decide) (by decide)).2,
    by decide, by decide⟩

/-! ### Deduplication lemmas -/

theorem dedupeSeen_subset (l : List OuterEvent) :
    ∀ (seen : List (List Char)) (a : OuterEvent), a ∈ dedupeSeen l seen → a ∈ l := by
  induction l with
  | nil =>
    intro seen a ha
    simp [dedupeSeen] at ha
  | cons e rest ih =>
    intro seen a ha
    unfold dedupeSeen at ha
    by_cases hs : e.id ∈ seen
    · rw [if_pos hs] at ha
      exact List.mem_cons_of_mem e (ih seen a ha)
    · rw [if_neg hs] at ha
      rcases List.mem_cons.mp ha with rfl | ha
      · exact List.mem_cons_self a _
      · exact List.mem_cons_of_mem e (ih _ a ha)

theorem dedupeById_subset (l : List OuterEvent) (a : OuterEvent)
    (ha : a ∈ dedupeById l) : a ∈ l :=
  dedupeSeen_subset l [] a ha

theorem mem_dedupeSeen (l : List OuterEvent) :
    ∀ (seen : List (List Char)),
      (∀ x, x ∈ l → ∀ y, y ∈ l → x.id = y.id → x = y) →
      ∀ a, a ∈ l → a.id ∉ seen → a ∈ dedupeSeen l seen := by
  induction l with
  | nil =>
    intro seen _ a ha
    simp at ha
  | cons e rest ih =>
    intro seen hinj a ha hseen
    have hinj' : ∀ x, x ∈ rest → ∀ y, y ∈ rest → x.id = y.id → x = y := by
      intro x hx y hy
      exact hinj x (List.mem_cons_of_mem e hx) y (List.mem_cons_of_mem e hy)
    unfold dedupeSeen
    by_cases hs : e.id ∈ seen
    · rw [if_pos hs]
      rcases List.mem_cons.mp ha with rfl | ha
      · exact absurd hs hseen
      · exact ih seen hinj' a ha hseen
    · rw [if_neg hs]
      rcases List.mem_cons.mp ha with rfl | ha
      · exact List.mem_cons_self a _
      · by_cases hid : a.id = e.id
        · have : a = e :=
            hinj a (List.mem_cons_of_mem e ha) e (List.mem_cons_self e rest) hid
          rw [this]
          exact List.mem_cons_self e _
        · refine List.mem_cons_of_mem e (ih _ hinj' a ha ?_)
          rw [List.mem_cons]
          rintro (h | h)
          · exact hid h
          · exact hseen h

theorem mem_dedupeById_of_inj (l : List OuterEvent)
    (hinj : ∀ x, x ∈ l → ∀ y, y ∈ l → x.id = y.id → x = y)
    (a : OuterEvent) (ha : a ∈ l) : a ∈ dedupeById l :=
  mem_dedupeSeen l [] hinj a ha (by simp)

theorem dedupeSeen_pairwise_ids (l : List OuterEvent) :
    ∀ (seen : List (List Char)),
      (dedupeSeen l seen).Pairwise (fun a b => a.id ≠ b.id) ∧
      (∀ a, a ∈ dedupeSeen l seen → a.id ∉ seen) := by
  induction l with
  | nil =>
    intro seen
    exact ⟨List.Pairwise.nil, by intro a ha; simp [dedupeSeen] at ha⟩
  | cons e rest ih =>
    intro seen
    unfold dedupeSeen
    by_cases hs : e.id ∈ seen
    · rw [if_pos hs]
      exact ih seen
    · rw [if_neg hs]
      obtain ⟨hpw, hnotin⟩ := ih (e.id :: seen)
      constructor
      · rw [List.pairwise_cons]
        refine ⟨?_, hpw⟩
        intro b hb
        have := hnotin b hb
        rw [List.mem_cons] at this
        exact fun he => this (Or.inl he.symm)
      · intro a ha
        rcases List.mem_cons.mp ha with rfl | ha
        · exact hs
        · have := hnotin a ha
          rw [List.mem_cons] at this
          exact fun h => this (Or.inr h)

theorem dedupeById_pairwise_ids (l : List OuterEvent) :
    (dedupeById l).Pairwise (fun a b => a.id ≠ b.id) :=
  (dedupeSeen_pairwise_ids l []).1

theorem dedupeById_nodup (l : List OuterEvent) : (dedupeById l).Nodup := by
  have h := dedupeById_pairwise_ids l
  refine h.imp ?_
  intro a b hid he
  exact hid (congrArg OuterEvent.id he)

theorem dedupeSeen_ids_complete (l : List OuterEvent) :
    ∀ (seen : List (List Char)) (a : OuterEvent), a ∈ l →
      a.id ∈ seen ∨ a.id ∈ (dedupeSeen l seen).map (fun e => e.id) := by
  induction l with
  | nil =>
    intro seen a ha
    simp at ha
  | cons e rest ih =>
    intro seen a ha
    unfold dedupeSeen
    by_cases hs : e.id ∈ seen
    · rw [if_pos hs]
      rcases List.mem_cons.mp ha with rfl | ha
      · exact Or.inl hs
      · exact ih seen a ha
    · rw [if_neg hs, List.map_cons]
      rcases List.mem_cons.mp ha with rfl | ha
      · exact Or.inr (List.mem_cons_self a.id _)
      · rcases ih (e.id :: seen) a ha with hin | hin
        · rcases List.mem_cons.mp hin with h | h
          · exact Or.inr (h ▸ List.mem_cons_self e.id _)
          · exact Or.inl h
        · exact Or.inr (List.mem_cons_of_mem e.id hin)

theorem dedupeById_ids_complete (l : List OuterEvent) (a : OuterEvent) (ha : a ∈ l) :
    a.id ∈ (dedupeById l).map (fun e => e.id) := by
  rcases dedupeSeen_ids_complete l [] a ha with h | h
  · simp at h
  · exact h

/-! ### Projections of `ingestBatch` -/

/-- The batch after dedupe and composite-cursor sort. -/
def freshSortedOf (s : IngestState) (batch : List OuterEvent) : List OuterEvent :=
  sortLe eventLe (dedupeById (batch.filter (fun e => !(decide (e.id ∈ s.processed)))))

theorem ingestBatch_epoch (s : IngestState) (batch : List OuterEvent) :
    (ingestBatch s batch).epoch =
      (runCommits s.epoch (sortLe commitLe ((freshSortedOf s batch).filterMap commitOf))).1 :=
  rfl

theorem ingestBatch_processed (s : IngestState) (batch : List OuterEvent) :
    (ingestBatch s batch).processed =
      s.processed ++ (freshSortedOf s batch).map (fun e => e.id) :=
  rfl

theorem ingestBatch_rumors (s : IngestState) (batch : List OuterEvent) :
    (ingestBatch s batch).rumors =
      ((freshSortedOf s batch).filterMap rumorIdOf).foldl addRumorId s.rumors :=
  rfl

theorem ingestBatch_resume (s : IngestState) (batch : List OuterEvent) :
    (ingestBatch s batch).resume =
      ((freshSortedOf s batch).map cursorOf).foldl markOuterEventProcessed s.resume :=
  rfl

/-- Elements of the deduped sorted batch are the fresh batch events, given
that ids determine events. -/
theorem mem_freshSortedOf {s : IngestState} {batch : List OuterEvent}
    (hinj : ∀ a, a ∈ batch → ∀ b, b ∈ batch → a.id = b.id → a = b) (e : OuterEvent) :
    e ∈ freshSortedOf s batch ↔ (e ∈ batch ∧ e.id ∉ s.processed) := by
  unfold freshSortedOf
  rw [mem_sortLe]
  constructor
  · intro h
    have := dedupeById_subset _ e h
    rw [List.mem_filter] at this
    refine ⟨this.1, ?_⟩
    have h2 := this.2
    simp only [Bool.not_eq_eq_eq_not, Bool.not_true, decide_eq_false_iff_not] at h2
    exact h2
  · rintro ⟨hmem, hproc⟩
    have hf : e ∈ batch.filter (fun x => !(decide (x.id ∈ s.processed))) := by
      rw [List.mem_filter]
      exact ⟨hmem, by simp [hproc]⟩
    refine mem_dedupeById_of_inj _ ?_ e hf
    intro x hx y hy
    exact hinj x (List.mem_of_mem_filter hx) y (List.mem_of_mem_filter hy)

/-- `ingestBatch` written out through `freshSortedOf`. -/
theorem ingestBatch_eq_mk (s : IngestState) (batch : List OuterEvent) :
    ingestBatch s batch =
      ⟨(runCommits s.epoch (sortLe commitLe ((freshSortedOf s batch).filterMap commitOf))).1,
        s.processed ++ (freshSortedOf s batch).map (fun e => e.id),
        ((freshSortedOf s batch).filterMap rumorIdOf).foldl addRumorId s.rumors,
        ((freshSortedOf s batch).map cursorOf).foldl markOuterEventProcessed s.resume⟩ :=
  rfl

theorem eventLe_antisymm_parts {a b : OuterEvent}
    (hab : eventLe a b = true) (hba : eventLe b a = true) :
    a.created_at = b.created_at ∧ a.id = b.id := by
  rw [eventLe_iff] at hab hba
  unfold eventLeP at hab hba
  rcases hab with hab | ⟨he1, hab⟩
  · rcases hba with hba | ⟨he2, -⟩
    · exact absurd (lt_trans hab hba) (lt_irrefl _)
    · rw [he2] at hab
      exact absurd hab (lt_irrefl _)
  · rcases hba with hba | ⟨-, hba⟩
    · rw [he1] at hba
      exact absurd hba (lt_irrefl _)
    · exact ⟨he1, le_antisymm hab hba⟩

theorem nodup_freshSortedOf (s : IngestState) (batch : List OuterEvent) :
    (freshSortedOf s batch).Nodup := by
  unfold freshSortedOf
  rw [(perm_sortLe eventLe _).nodup_iff]
  exact dedupeById_nodup _

/-- Two batches with the same event set produce the same deduped sorted list. -/
theorem freshSortedOf_eq (s : IngestState) (B l : List OuterEvent)
    (hmem : ∀ e, e ∈ l ↔ e ∈ B)
    (hinj : ∀ a, a ∈ B → ∀ b, b ∈ B → a.id = b.id → a = b) :
    freshSortedOf s l = freshSortedOf s B := by
  have hinjl : ∀ a, a ∈ l → ∀ b, b ∈ l → a.id = b.id → a = b := by
    intro a ha b hb
    exact hinj a ((hmem a).mp ha) b ((hmem b).mp hb)
  have hmemfs : ∀ e, e ∈ freshSortedOf s l ↔ e ∈ freshSortedOf s B := by
    intro e
    rw [mem_freshSortedOf hinjl e, mem_freshSortedOf hinj e, hmem e]
  have hperm : (freshSortedOf s l).Perm (freshSortedOf s B) :=
    (List.perm_ext_iff_of_nodup (nodup_freshSortedOf s l) (nodup_freshSortedOf s B)).mpr
      hmemfs
  refine @sorted_perm_eq OuterEvent eventLe _ _ ?_ hperm ?_ ?_
  · intro a ha b hb hab hba
    obtain ⟨-, hid⟩ := eventLe_antisymm_parts hab hba
    have haB : a ∈ B := (hmem a).mp ((mem_freshSortedOf hinjl a).mp ha).1
    have hbB : b ∈ B := ((mem_freshSortedOf hinj b).mp hb).1
    exact hinj a haB b hbB hid
  · exact sorted_sortLe eventLe_total eventLe_trans _
  · exact sorted_sortLe eventLe_total eventLe_trans _

/-- A batch whose ids are all recorded as processed is a no-op for ingest. -/
theorem ingestBatch_all_processed (s' : IngestState) (B : List OuterEvent)
    (h : ∀ e, e ∈ B → e.id ∈ s'.processed) : ingestBatch s' B = s' := by
  obtain ⟨ep, pr, ru, re⟩ := s'
  have hfilter : B.filter (fun e => !(decide (e.id ∈ pr))) = [] := by
    rw [List.filter_eq_nil_iff]
    intro e he
    simp only [Bool.not_eq_eq_eq_not, Bool.not_true, decide_eq_false_iff_not, not_not]
    exact h e he
  rw [ingestBatch_eq_mk]
  unfold freshSortedOf
  simp only [hfilter]
  rw [dedupeById]
  simp [sortLe, runCommits]

/--
C3: ingest is replay-idempotent — for a batch whose events are determined by
their ids, any permutation with any multiplicities yields exactly the same
post-state (same MLS snapshot, same persisted rumor set, same processed set
and resume cursor), and re-ingesting a batch that was already ingested leaves
the state untouched (one history entry per rumor, resume cursor unchanged).
-/
theorem ingest_replay_idempotent :
    (∀ (s : IngestState) (B l : List OuterEvent),
       (∀ e, e ∈ l ↔ e ∈ B) →
       (∀ a, a ∈ B → ∀ b, b ∈ B → a.id = b.id → a = b) →
       ingestBatch s l = ingestBatch s B) ∧
    (∀ (s : IngestState) (B : List OuterEvent),
       ingestBatch (ingestBatch s B) B = ingestBatch s B) := by
  constructor
  · intro s B l hmem hinj
    rw [ingestBatch_eq_mk s l, ingestBatch_eq_mk s B, freshSortedOf_eq s B l hmem hinj]
  · intro s B
    apply ingestBatch_all_processed
    intro e he
    rw [ingestBatch_processed]
    by_cases hp : e.id ∈ s.processed
    · exact List.mem_append_left _ hp
    · refine List.mem_append_right _ ?_
      have hf : e ∈ B.filter (fun x => !(decide (x.id ∈ s.processed))) := by
        rw [List.mem_filter]
        exact ⟨he, by simp [hp]⟩
      have hd := dedupeById_ids_complete _ e hf
      unfold freshSortedOf
      exact ((perm_sortLe eventLe _).map (fun e => e.id)).mem_iff.mpr hd

/-- Witness for C3: ingesting a two-event batch, then replaying it reversed
and duplicated, equals ingesting it once; and re-ingesting the same batch is
the identity. -/
theorem ingest_replay_idempotent_witness :
    ((∀ e, e ∈ ([⟨['b'], 11, .application ['r']⟩, ⟨['a'], 10, .commit 0⟩,
          ⟨['b'], 11, .application ['r']⟩] : List OuterEvent) ↔
        e ∈ ([⟨['a'], 10, .commit 0⟩, ⟨['b'], 11, .application ['r']⟩] :
          List OuterEvent)) ∧
      (∀ a, a ∈ ([⟨['a'], 10, .commit 0⟩, ⟨['b'], 11, .application ['r']⟩] :
          List OuterEvent) →
        ∀ b, b ∈ ([⟨['a'], 10, .commit 0⟩, ⟨['b'], 11, .application ['r']⟩] :
          List OuterEvent) → a.id = b.id → a = b) ∧
      ingestBatch ⟨0, [], [], none⟩
          [⟨['b'], 11, .application ['r']⟩, ⟨['a'], 10, .commit 0⟩,
            ⟨['b'], 11, .application ['r']⟩] =
        ingestBatch ⟨0, [], [], none⟩
          [⟨['a'], 10, .commit 0⟩, ⟨['b'], 11, .application ['r']⟩]) ∧
    ingestBatch
        (ingestBatch ⟨0, [], [], none⟩
          [⟨['a'], 10, .commit 0⟩, ⟨['b'], 11, .application ['r']⟩])
        [⟨['a'], 10, .commit 0⟩, ⟨['b'], 11, .application ['r']⟩] =
      ingestBatch ⟨0, [], [], none⟩
        [⟨['a'], 10, .commit 0⟩, ⟨['b'], 11, .application ['r']⟩] :=
  ⟨⟨by intro e; simp only [List.mem_cons, List.not_mem_nil, or_false]; tauto,
      by
        intro a ha b hb hid
        fin_cases ha <;> fin_cases hb <;> simp_all,
      ingest_replay_idempotent.1 ⟨0, [], [], none⟩
        [⟨['a'], 10, .commit 0⟩, ⟨['b'], 11, .application ['r']⟩]
        [⟨['b'], 11, .application ['r']⟩, ⟨['a'], 10, .commit 0⟩,
          ⟨['b'], 11, .application ['r']⟩]
        (by intro e; simp only [List.mem_cons, List.not_mem_nil, or_false]; tauto)
        (by
          intro a ha b hb hid
          fin_cases ha <;> fin_cases hb <;> simp_all)⟩,
    ingest_replay_idempotent.2 ⟨0, [], [], none⟩
      [⟨['a'], 10, .commit 0⟩, ⟨['b'], 11, .application ['r']⟩]⟩

/-! ### Resume-cursor bound lemmas for ingest -/

theorem compareCursor_nonpos_of_not_lt {p y : OuterCursor} (h : ¬ cursorLtP p y) :
    compareCursor y p ≤ 0 := by
  rw [compareCursor_nonpos_iff]
  unfold cursorLtP at h
  push_neg at h
  rcases lt_trichotomy y.created_at p.created_at with hlt | heq | hgt
  · exact Or.inl hlt
  · exact Or.inr ⟨heq, h.2 heq.symm⟩
  · exact absurd hgt (not_lt.mpr h.1)

theorem mark_new_le (r : Option OuterCursor) (y : OuterCursor) :
    ∃ r1, markOuterEventProcessed r y = some r1 ∧ compareCursor y r1 ≤ 0 := by
  cases r with
  | none =>
    refine ⟨y, rfl, ?_⟩
    rw [compareCursor_nonpos_iff]
    exact Or.inr ⟨rfl, le_refl _⟩
  | some p =>
    by_cases hlt : cursorLtP p y
    · refine ⟨y, by simp [markOuterEventProcessed, hlt], ?_⟩
      rw [compareCursor_nonpos_iff]
      exact Or.inr ⟨rfl, le_refl _⟩
    · exact ⟨p, by simp [markOuterEventProcessed, hlt],
        compareCursor_nonpos_of_not_lt hlt⟩

theorem foldl_mark_isSome (lst : List OuterCursor) :
    ∀ (p : OuterCursor), ∃ m, List.foldl markOuterEventProcessed (some p) lst = some m := by
  induction lst with
  | nil =>
    intro p
    exact ⟨p, rfl⟩
  | cons y t ih =>
    intro p
    obtain ⟨r1, hr1, -⟩ := markOuterEventProcessed_le p y
    obtain ⟨m, hm⟩ := ih r1
    refine ⟨m, ?_⟩
    rw [List.foldl_cons, hr1, hm]

theorem foldl_mark_ne_nil (lst : List OuterCursor) (r : Option OuterCursor)
    (h : lst ≠ []) :
    ∃ m, List.foldl markOuterEventProcessed r lst = some m := by
  cases lst with
  | nil => exact absurd rfl h
  | cons y t =>
    obtain ⟨r1, hr1, -⟩ := mark_new_le r y
    obtain ⟨m, hm⟩ := foldl_mark_isSome t r1
    refine ⟨m, ?_⟩
    rw [List.foldl_cons, hr1, hm]

theorem foldl_mark_bound (lst : List OuterCursor) :
    ∀ (r : Option OuterCursor) (m : OuterCursor),
      List.foldl markOuterEventProcessed r lst = some m →
      ∀ x, x ∈ lst → compareCursor x m ≤ 0 := by
  induction lst with
  | nil =>
    intro r m hm x hx
    simp at hx
  | cons y t ih =>
    intro r m hm x hx
    obtain ⟨r1, hr1, hyr1⟩ := mark_new_le r y
    rw [List.foldl_cons, hr1] at hm
    rcases List.mem_cons.mp hx with rfl | hx
    · exact compareCursor_nonpos_trans hyr1 (foldl_mark_mono t r1 m hm)
    · exact ih (some r1) m hm x hx

theorem foldl_mark_attain (lst : List OuterCursor) :
    ∀ (r : Option OuterCursor) (m : OuterCursor),
      List.foldl markOuterEventProcessed r lst = some m →
      m ∈ lst ∨ r = some m := by
  induction lst with
  | nil =>
    intro r m hm
    simp only [List.foldl_nil] at hm
    exact Or.inr hm
  | cons y t ih =>
    intro r m hm
    rw [List.foldl_cons] at hm
    rcases ih (markOuterEventProcessed r y) m hm with hmem | heq
    · exact Or.inl (List.mem_cons_of_mem y hmem)
    · cases r with
      | none =>
        simp only [markOuterEventProcessed, Option.some.injEq] at heq
        exact Or.inl (heq ▸ List.mem_cons_self y t)
      | some p =>
        by_cases hlt : cursorLtP p y
        · simp only [markOuterEventProcessed, if_pos hlt, Option.some.injEq] at heq
          exact Or.inl (heq ▸ List.mem_cons_self y t)
        · simp only [markOuterEventProcessed, if_neg hlt] at heq
          exact Or.inr heq

theorem mem_foldl_addRumorId (lst : List (List Char)) :
    ∀ (rs : List (List Char)) (rid : List Char),
      rid ∈ lst.foldl addRumorId rs ↔ (rid ∈ rs ∨ rid ∈ lst) := by
  induction lst with
  | nil =>
    intro rs rid
    simp
  | cons x t ih =>
    intro rs rid
    rw [List.foldl_cons, ih]
    have hx : rid ∈ addRumorId rs x ↔ (rid ∈ rs ∨ rid = x) := by
      unfold addRumorId
      by_cases hmem : x ∈ rs
      · rw [if_pos hmem]
        constructor
        · exact Or.inl
        · rintro (h | rfl)
          · exact h
          · exact hmem
      · rw [if_neg hmem, List.mem_append, List.mem_singleton]
    rw [hx, List.mem_cons]
    tauto

/--
C5: after ingesting a batch with at least one fresh event, the resume cursor
is the greatest fresh outer cursor in the batch under `compareCursor` (or the
prior resume cursor), even when events yield no rumor; and the persisted
rumors are exactly the prior ones plus the rumor ids of the batch's fresh
application events.
-/
theorem ingest_watermark (s : IngestState) (batch : List OuterEvent)
    (hinj : ∀ a, a ∈ batch → ∀ b, b ∈ batch → a.id = b.id → a = b)
    (hfresh : ∃ e, e ∈ batch ∧ e.id ∉ s.processed) :
    ∃ m, (ingestBatch s batch).resume = some m ∧
      (∀ e, e ∈ batch → e.id ∉ s.processed → compareCursor (cursorOf e) m ≤ 0) ∧
      ((∃ e, e ∈ batch ∧ e.id ∉ s.processed ∧ cursorOf e = m) ∨ s.resume = some m) ∧
      (∀ rid, rid ∈ (ingestBatch s batch).rumors ↔
        (rid ∈ s.rumors ∨
          ∃ e, e ∈ batch ∧ e.id ∉ s.processed ∧ rumorIdOf e = some rid)) := by
  obtain ⟨e0, he0, hp0⟩ := hfresh
  have he0f : e0 ∈ freshSortedOf s batch := (mem_freshSortedOf hinj e0).mpr ⟨he0, hp0⟩
  have hne : (freshSortedOf s batch).map cursorOf ≠ [] := by
    intro hcontra
    rw [List.map_eq_nil_iff] at hcontra
    rw [hcontra] at he0f
    simp at he0f
  obtain ⟨m, hm⟩ := foldl_mark_ne_nil _ s.resume hne
  refine ⟨m, by rw [ingestBatch_resume]; exact hm, ?_, ?_, ?_⟩
  · intro e he hp
    have hmem : cursorOf e ∈ (freshSortedOf s batch).map cursorOf :=
      List.mem_map_of_mem cursorOf ((mem_freshSortedOf hinj e).mpr ⟨he, hp⟩)
    exact foldl_mark_bound _ s.resume m hm _ hmem
  · rcases foldl_mark_attain _ s.resume m hm with hmem | hinit
    · obtain ⟨e, hef, hce⟩ := List.mem_map.mp hmem
      obtain ⟨heb, hep⟩ := (mem_freshSortedOf hinj e).mp hef
      exact Or.inl ⟨e, heb, hep, hce⟩
    · exact Or.inr hinit
  · intro rid
    rw [ingestBatch_rumors, mem_foldl_addRumorId]
    apply or_congr_right
    rw [List.mem_filterMap]
    constructor
    · rintro ⟨e, hef, her⟩
      obtain ⟨heb, hep⟩ := (mem_freshSortedOf hinj e).mp hef
      exact ⟨e, heb, hep, her⟩
    · rintro ⟨e, heb, hep, her⟩
      exact ⟨e, (mem_freshSortedOf hinj e).mpr ⟨heb, hep⟩, her⟩

/-- Witness for C5: the S5 scenario — a commit-only event at `(10, "aa")`
followed by an application event at `(11, "bb")`: one rumor is persisted and
the resume cursor lands on `(11, "bb")`. -/
theorem ingest_watermark_witness :
    ((∀ a, a ∈ ([⟨['a', 'a'], 10, .commit 0⟩, ⟨['b', 'b'], 11, .application ['r', 'r']⟩] :
        List OuterEvent) →
      ∀ b, b ∈ ([⟨['a', 'a'], 10, .commit 0⟩, ⟨['b', 'b'], 11, .application ['r', 'r']⟩] :
        List OuterEvent) → a.id = b.id → a = b) ∧
      (∃ e, e ∈ ([⟨['a', 'a'], 10, .commit 0⟩, ⟨['b', 'b'], 11, .application ['r', 'r']⟩] :
        List OuterEvent) ∧ e.id ∉ ([] : List (List Char))) ∧
      (∃ m, (ingestBatch ⟨0, [], [], none⟩
          [⟨['a', 'a'], 10, .commit 0⟩, ⟨['b', 'b'], 11, .application ['r', 'r']⟩]).resume =
            some m ∧
        (∀ e, e ∈ ([⟨['a', 'a'], 10, .commit 0⟩,
            ⟨['b', 'b'], 11, .application ['r', 'r']⟩] : List OuterEvent) →
          e.id ∉ ([] : List (List Char)) → compareCursor (cursorOf e) m ≤ 0) ∧
        ((∃ e, e ∈ ([⟨['a', 'a'], 10, .commit 0⟩,
            ⟨['b', 'b'], 11, .application ['r', 'r']⟩] : List OuterEvent) ∧
            e.id ∉ ([] : List (List Char)) ∧ cursorOf e = m) ∨
          (none : Option OuterCursor) = some m) ∧
        (∀ rid, rid ∈ (ingestBatch ⟨0, [], [], none⟩
            [⟨['a', 'a'], 10, .commit 0⟩,
              ⟨['b', 'b'], 11, .application ['r', 'r']⟩]).rumors ↔
          (rid ∈ ([] : List (List Char)) ∨
            ∃ e, e ∈ ([⟨['a', 'a'], 10, .commit 0⟩,
              ⟨['b', 'b'], 11, .application ['r', 'r']⟩] : List OuterEvent) ∧
              e.id ∉ ([] : List (List Char)) ∧ rumorIdOf e = some rid)))) ∧
    (ingestBatch ⟨0, [], [], none⟩
        [⟨['a', 'a'], 10, .commit 0⟩, ⟨['b', 'b'], 11, .application ['r', 'r']⟩]).resume =
      some ⟨11, ['b', 'b']⟩ ∧
    (ingestBatch ⟨0, [], [], none⟩
        [⟨['a', 'a'], 10, .commit 0⟩, ⟨['b', 'b'], 11, .application ['r', 'r']⟩]).rumors =
      [['r', 'r']] :=
  ⟨⟨by
      intro a ha b hb hid
      fin_cases ha <;> fin_cases hb <;> simp_all,
    ⟨⟨['a', 'a'], 10, .commit 0⟩, by decide⟩,
    ingest_watermark ⟨0, [], [], none⟩
      [⟨['a', 'a'], 10, .commit 0⟩, ⟨['b', 'b'], 11, .application ['r', 'r']⟩]
      (by
        intro a ha b hb hid
        fin_cases ha <;> fin_cases hb <;> simp_all)
      ⟨⟨['a', 'a'], 10, .commit 0⟩, by decide⟩⟩,
    by decide, by decide⟩

/-! ## Admin policy callback

`createAdminCommitPolicyCallback` lives in src/client/group/marmot-group.ts,
which is not part of the source snapshot; only its test
(src/__tests__/admin-verification.test.ts) is.  The callback and the MLS
provider's reject semantics are modelled from spec §4.8; the pubkey
extraction reuses `getCredentialPubkey`, embedded above from
src/core/credential.ts. -/

/-- The action an admin commit policy callback reports to `processMessage`. -/
inductive PolicyAction
  | accept
  | reject
  deriving DecidableEq

/-- Modelled from the spec: `createAdminCommitPolicyCallback` (spec §4.8) —
extract the sender's Nostr pubkey from its MLS basic credential and accept
exactly when it is in the group's `admin_pubkeys`; a credential whose pubkey
cannot be extracted is rejected (`onUnverifiableCommit: "reject"`). -/
def adminCommitPolicyCallback (adminPubkeys : List (List Char))
    (senderCredential : Credential) : PolicyAction :=
  match getCredentialPubkey senderCredential with
  | .ok pk => if pk ∈ adminPubkeys then .accept else .reject
  | .error _ => .reject

/-- Modelled from the spec: the group state commit processing can touch —
epoch, ratchet tree bytes, and the persisted history entries. -/
structure GroupProcState where
  epoch : Nat
  ratchetTree : List Nat
  history : List (List Char)
  deriving DecidableEq

/-- Modelled from the spec: MLS `processMessage` of a commit under the admin
policy callback (spec §4.8, §4.9 step 5): on `accept` the commit replaces the
ratchet tree and advances the epoch; on `reject` the group state MUST NOT
advance. -/
def processCommitWithPolicy (adminPubkeys : List (List Char))
    (senderCredential : Credential) (st : GroupProcState) (newTree : List Nat) :
    GroupProcState × PolicyAction :=
  match adminCommitPolicyCallback adminPubkeys senderCredential with
  | .accept => ({ st with epoch := st.epoch + 1, ratchetTree := newTree }, .accept)
  | .reject => (st, .reject)

/--
C2: a commit whose sender credential maps to a Nostr pubkey outside
`admin_pubkeys` is rejected by the admin policy callback, and processing it
leaves the group state (epoch, ratchet tree, history) exactly unchanged.
-/
theorem admin_reject_leaves_state (adminPubkeys : List (List Char))
    (cred : Credential) (pk : List Char)
    (hpk : getCredentialPubkey cred = .ok pk) (hnot : pk ∉ adminPubkeys)
    (st : GroupProcState) (newTree : List Nat) :
    adminCommitPolicyCallback adminPubkeys cred = .reject ∧
    processCommitWithPolicy adminPubkeys cred st newTree = (st, .reject) ∧
    (processCommitWithPolicy adminPubkeys cred st newTree).1.epoch = st.epoch ∧
    (processCommitWithPolicy adminPubkeys cred st newTree).1.ratchetTree = st.ratchetTree ∧
    (processCommitWithPolicy adminPubkeys cred st newTree).1.history = st.history := by
  have hcb : adminCommitPolicyCallback adminPubkeys cred = .reject := by
    unfold adminCommitPolicyCallback
    rw [hpk]
    simp [hnot]
  have hproc : processCommitWithPolicy adminPubkeys cred st newTree = (st, .reject) := by
    unfold processCommitWithPolicy
    rw [hcb]
  exact ⟨hcb, hproc, by rw [hproc], by rw [hproc], by rw [hproc]⟩

/-- Witness for C2: a non-admin sender (identity bytes 11 repeated, i.e. the
pubkey `0b…0b`) against the admin set `{aa…aa}`. -/
theorem admin_reject_leaves_state_witness :
    getCredentialPubkey ⟨.basic, List.replicate 32 11⟩ =
      .ok (bytesToHex (List.replicate 32 11)) ∧
    bytesToHex (List.replicate 32 11) ∉ [List.replicate 64 'a'] ∧
    (adminCommitPolicyCallback [List.replicate 64 'a'] ⟨.basic, List.replicate 32 11⟩ =
        .reject ∧
      processCommitWithPolicy [List.replicate 64 'a'] ⟨.basic, List.replicate 32 11⟩
          ⟨1, [1, 2, 3], [['h']]⟩ [9, 9] = (⟨1, [1, 2, 3], [['h']]⟩, .reject) ∧
      (processCommitWithPolicy [List.replicate 64 'a'] ⟨.basic, List.replicate 32 11⟩
          ⟨1, [1, 2, 3], [['h']]⟩ [9, 9]).1.epoch = 1 ∧
      (processCommitWithPolicy [List.replicate 64 'a'] ⟨.basic, List.replicate 32 11⟩
          ⟨1, [1, 2, 3], [['h']]⟩ [9, 9]).1.ratchetTree = [1, 2, 3] ∧
      (processCommitWithPolicy [List.replicate 64 'a'] ⟨.basic, List.replicate 32 11⟩
          ⟨1, [1, 2, 3], [['h']]⟩ [9, 9]).1.history = [['h']]) :=
  ⟨by decide, by decide,
    admin_reject_leaves_state [List.replicate 64 'a'] ⟨.basic, List.replicate 32 11⟩
      (bytesToHex (List.replicate 32 11)) (by decide) (by decide)
      ⟨1, [1, 2, 3], [['h']]⟩ [9, 9]⟩

/-! ## Invite / commit publish ordering

`MarmotGroup.inviteByKeyPackageEvent` and `MarmotGroup.commit` live in
src/client/group/marmot-group.ts, not part of the snapshot; the end-to-end
test in src/__tests__ checks the publish order on a mock relay.  The flow's
outward actions are modelled from spec §4.10. -/

/-- Modelled from the spec: the externally visible actions of the
invite/commit flow, in execution order. -/
inductive InviteAction
  | publishCommit
  | commitAck (ok : Bool)
  | publishGiftWrap (invitee : List Char)
  | persistState
  deriving DecidableEq

/-- Modelled from the spec: `inviteByKeyPackageEvent` (spec §4.10) — publish
the kind 445 commit envelope, wait for the relay acknowledgements (`acks` are
the `ok` fields of the publish responses), and only when at least one relay
acknowledged create and publish one kind 1059 Welcome gift wrap per invitee
and persist the new MLS state; with no acknowledgement the flow stops with
`NoRelayAck` before any Welcome exists. -/
def inviteTrace (acks : List Bool) (invitees : List (List Char)) : List InviteAction :=
  .publishCommit :: .commitAck (acks.any id) ::
    (if acks.any id then invitees.map InviteAction.publishGiftWrap ++ [.persistState]
     else [])

/--
C6: in every run of the invite flow the kind 445 commit envelope is published
first and a positive relay acknowledgement is observed before any kind 1059
Welcome gift wrap; when no relay acknowledged the commit, no Welcome is
published at all.
-/
theorem invite_commit_before_welcome (acks : List Bool) (invitees : List (List Char)) :
    ((inviteTrace acks invitees)[0]? = some InviteAction.publishCommit) ∧
    (∀ (j : Nat) (x : List Char),
      (inviteTrace acks invitees)[j]? = some (InviteAction.publishGiftWrap x) →
      ∃ i k, i < j ∧ k < j ∧
        (inviteTrace acks invitees)[i]? = some InviteAction.publishCommit ∧
        (inviteTrace acks invitees)[k]? = some (InviteAction.commitAck true)) ∧
    (acks.any id = false →
      ∀ (j : Nat) (x : List Char),
        (inviteTrace acks invitees)[j]? ≠ some (InviteAction.publishGiftWrap x)) := by
  have hnoack : acks.any id = false →
      ∀ (j : Nat) (x : List Char),
        (inviteTrace acks invitees)[j]? ≠ some (InviteAction.publishGiftWrap x) := by
    intro hack j x hj
    unfold inviteTrace at hj
    rw [hack] at hj
    rw [if_neg (by simp)] at hj
    match j with
    | 0 => exact InviteAction.noConfusion (Option.some.inj hj)
    | 1 => exact InviteAction.noConfusion (Option.some.inj hj)
    | n + 2 =>
      rw [List.getElem?_cons_succ, List.getElem?_cons_succ] at hj
      simp at hj
  refine ⟨rfl, ?_, hnoack⟩
  intro j x hj
  have hack : acks.any id = true := by
    by_contra hcontra
    rw [Bool.not_eq_true] at hcontra
    exact hnoack hcontra j x hj
  have hj2 : 2 ≤ j := by
    match j with
    | 0 => exact absurd (Option.some.inj hj) (by intro hc; exact InviteAction.noConfusion hc)
    | 1 =>
      exfalso
      have h1 : (inviteTrace acks invitees)[1]? =
          some (InviteAction.commitAck (acks.any id)) := by
        unfold inviteTrace
        rw [List.getElem?_cons_succ, List.getElem?_cons_zero]
      rw [h1] at hj
      exact InviteAction.noConfusion (Option.some.inj hj)
    | n + 2 => omega
  refine ⟨0, 1, by omega, by omega, rfl, ?_⟩
  show (inviteTrace acks invitees)[1]? = some (InviteAction.commitAck true)
  have h1 : (inviteTrace acks invitees)[1]? =
      some (InviteAction.commitAck (acks.any id)) := by
    unfold inviteTrace
    rw [List.getElem?_cons_succ, List.getElem?_cons_zero]
  rw [h1, hack]

/-- Witness for C6: one acknowledging relay and one invitee produce the trace
commit → ack → gift wrap → persist; with no acknowledgement the trace stops
after the failed ack. -/
theorem invite_commit_before_welcome_witness :
    ((inviteTrace [true] [['p']])[0]? = some InviteAction.publishCommit) ∧
    (∀ (j : Nat) (x : List Char),
      (inviteTrace [true] [['p']])[j]? = some (InviteAction.publishGiftWrap x) →
      ∃ i k, i < j ∧ k < j ∧
        (inviteTrace [true] [['p']])[i]? = some InviteAction.publishCommit ∧
        (inviteTrace [true] [['p']])[k]? = some (InviteAction.commitAck true)) ∧
    inviteTrace [true] [['p']] =
      [InviteAction.publishCommit, InviteAction.commitAck true,
        InviteAction.publishGiftWrap ['p'], InviteAction.persistState] ∧
    inviteTrace [false] [['p']] =
      [InviteAction.publishCommit, InviteAction.commitAck false] :=
  ⟨(invite_commit_before_welcome [true] [['p']]).1,
    (invite_commit_before_welcome [true] [['p']]).2.1,
    by decide, by decide⟩

/-! ## Application rumor serializer

`serializeApplicationRumor` lives in src/core/group-message.ts, not part of
the snapshot.  It is modelled from spec §4.4: the canonical JSON of the rumor
with `sig` removed, failing when the caller set `sig`.  (The planning
document describes an earlier revision that silently stripped `sig`; the
specification mandates failure.) -/

/-- An inner application rumor; `sig` is `some _` when the caller erroneously
signed it. -/
structure Rumor where
  id : List Char
  pubkey : List Char
  created_at : Int
  kind : Nat
  content : List Char
  sig : Option (List Char)
  deriving DecidableEq

/-- Byte values of an ASCII string fragment. -/
def strBytes (s : List Char) : List Nat :=
  s.map Char.toNat

/-- Modelled from the spec: canonical JSON bytes of the rumor without `sig`
(byte 123 and 125 are the braces, 44 the comma separating the fields). -/
def canonicalRumorBytes (r : Rumor) : List Nat :=
  [123] ++ strBytes r.id ++ [44] ++ strBytes r.pubkey ++ [44] ++
    strBytes r.created_at.repr.data ++ [44] ++ strBytes (Nat.repr r.kind).data ++ [44] ++
    strBytes r.content ++ [125]

/-- Modelled from the spec: `serializeApplicationRumor` (spec §4.4). -/
def serializeApplicationRumor (r : Rumor) : Except String (List Nat) :=
  if r.sig.isSome then
    .error "Inner application rumors must be unsigned"
  else .ok (canonicalRumorBytes r)

/--
C8: `serializeApplicationRumor` fails on every rumor whose `sig` field was
set by the caller, and never returns serialized bytes for it.
-/
theorem serializeApplicationRumor_rejects_signed (r : Rumor)
    (h : r.sig.isSome = true) :
    (∃ msg, serializeApplicationRumor r = .error msg) ∧
    (∀ bytes, serializeApplicationRumor r ≠ .ok bytes) := by
  unfold serializeApplicationRumor
  rw [if_pos h]
  exact ⟨⟨_, rfl⟩, by intro bytes hcontra; exact Except.noConfusion hcontra⟩

/-- Witness for C8: a signed rumor is refused. -/
theorem serializeApplicationRumor_rejects_signed_witness :
    (Rumor.mk ['r'] ['p'] 100 1 ['h', 'i'] (some ['s'])).sig.isSome = true ∧
    ((∃ msg, serializeApplicationRumor
        (Rumor.mk ['r'] ['p'] 100 1 ['h', 'i'] (some ['s'])) = .error msg) ∧
      (∀ bytes, serializeApplicationRumor
        (Rumor.mk ['r'] ['p'] 100 1 ['h', 'i'] (some ['s'])) ≠ .ok bytes)) :=
  ⟨by decide,
    serializeApplicationRumor_rejects_signed
      (Rumor.mk ['r'] ['p'] 100 1 ['h', 'i'] (some ['s'])) (by decide)⟩

/-! ## MarmotClient.joinGroupFromWelcome (src/client/marmot-client.ts)

The candidate collection, prioritization and try-loop are embedded from the
source; the ts-mls `joinGroup` call is an oracle parameter (it either yields
opaque state bytes or an error message), since its internals belong to the
MLS provider. -/

/-- A stored key package as `keyPackageStore.list()` exposes it; `hasPrivate`
records whether `getPrivateKey(keyPackageRef)` returns material. -/
structure StoredKeyPackage where
  keyPackageRef : List Nat
  cipherSuite : Nat
  hasPrivate : Bool
  deriving DecidableEq

/-- The decoded Welcome: its cipher suite and the `newMember` refs of its
per-recipient secrets. -/
structure WelcomeMsg where
  cipherSuite : Nat
  secrets : List (List Nat)
  deriving DecidableEq

/-- Candidates: stored packages with the Welcome's cipher suite whose private
half is available (marmot-client.ts lines 331-357). -/
def candidatePackages (kps : List StoredKeyPackage) (w : WelcomeMsg) :
    List StoredKeyPackage :=
  kps.filter (fun kp => kp.cipherSuite == w.cipherSuite && kp.hasPrivate)

/-- RFC 9420 KeyPackageRef matching: some welcome secret's `newMember` equals
the candidate's ref byte-for-byte. -/
def hasMatchingSecret (w : WelcomeMsg) (kp : StoredKeyPackage) : Bool :=
  w.secrets.any (fun s => s == kp.keyPackageRef)

/-- Candidates with a matching secret first, store order preserved within
each class (marmot-client.ts lines 372-377). -/
def prioritizedKeyPackages (kps : List StoredKeyPackage) (w : WelcomeMsg) :
    List StoredKeyPackage :=
  (candidatePackages kps w).filter (fun p => hasMatchingSecret w p) ++
    (candidatePackages kps w).filter (fun p => !(hasMatchingSecret w p))

/-- The try-each-candidate loop (marmot-client.ts lines 382-404): stop at the
first successful join, otherwise remember the last error. -/
def tryJoinLoop (join : StoredKeyPackage → Except (List Char) (List Nat)) :
    List StoredKeyPackage → Option (List Char) → Option (List Nat) × Option (List Char)
  | [], lastError => (none, lastError)
  | kp :: rest, _lastError =>
    match join kp with
    | .ok st => (some st, _lastError)
    | .error e => tryJoinLoop join rest (some e)

/-- The failure modes of `joinGroupFromWelcome`. -/
inductive JoinError
  | noMatchingKeyPackage
  | allFailed (lastError : Option (List Char))
  deriving DecidableEq

/-- `joinGroupFromWelcome` from src/client/marmot-client.ts (lines 301-431):
collect candidates, fail when none exists, try them in priority order, and on
success persist the resulting state to the group store (second component:
the list of states added to the store during the call). -/
def joinGroupFromWelcome (kps : List StoredKeyPackage) (w : WelcomeMsg)
    (join : StoredKeyPackage → Except (List Char) (List Nat)) :
    Except JoinError (List Nat) × List (List Nat) :=
  if candidatePackages kps w = [] then (.error .noMatchingKeyPackage, [])
  else
    match tryJoinLoop join (prioritizedKeyPackages kps w) none with
    | (some st, _) => (.ok st, [st])
    | (none, lastError) => (.error (.allFailed lastError), [])

theorem tryJoinLoop_ok (join : StoredKeyPackage → Except (List Char) (List Nat)) :
    ∀ (lst : List StoredKeyPackage) (last : Option (List Char)) (st : List Nat)
      (le : Option (List Char)),
      tryJoinLoop join lst last = (some st, le) →
      ∃ (k : Nat) (kp : StoredKeyPackage), lst[k]? = some kp ∧ join kp = .ok st ∧
        ∀ (i : Nat) (kp2 : StoredKeyPackage), i < k → lst[i]? = some kp2 →
          ∃ e, join kp2 = .error e := by
  intro lst
  induction lst with
  | nil =>
    intro last st le h
    simp [tryJoinLoop] at h
  | cons kp rest ih =>
    intro last st le h
    unfold tryJoinLoop at h
    cases hjoin : join kp with
    | ok st0 =>
      rw [hjoin] at h
      simp only [Prod.mk.injEq, Option.some.injEq] at h
      refine ⟨0, kp, by rw [List.getElem?_cons_zero], ?_, ?_⟩
      · rw [hjoin, h.1]
      · intro i kp2 hi
        omega
    | error e =>
      rw [hjoin] at h
      obtain ⟨k, kp0, hk, hok, hbefore⟩ := ih (some e) st le h
      refine ⟨k + 1, kp0, by rw [List.getElem?_cons_succ]; exact hk, hok, ?_⟩
      intro i kp2 hi hget
      match i with
      | 0 =>
        rw [List.getElem?_cons_zero] at hget
        exact ⟨e, (Option.some.inj hget) ▸ hjoin⟩
      | i2 + 1 =>
        rw [List.getElem?_cons_succ] at hget
        exact hbefore i2 kp2 (by omega) hget

theorem tryJoinLoop_all_error (join : StoredKeyPackage → Except (List Char) (List Nat)) :
    ∀ (lst : List StoredKeyPackage), lst ≠ [] →
      (∀ kp, kp ∈ lst → ∃ e, join kp = .error e) →
      ∀ (last : Option (List Char)),
        ∃ kp0 e, lst.getLast? = some kp0 ∧ join kp0 = .error e ∧
          tryJoinLoop join lst last = (none, some e) := by
  intro lst
  induction lst with
  | nil =>
    intro h
    exact absurd rfl h
  | cons kp rest ih =>
    intro _ hall last
    obtain ⟨e, he⟩ := hall kp (List.mem_cons_self kp rest)
    cases rest with
    | nil =>
      refine ⟨kp, e, rfl, he, ?_⟩
      unfold tryJoinLoop
      rw [he]
      rfl
    | cons r1 rest1 =>
      have hall' : ∀ kp2, kp2 ∈ r1 :: rest1 → ∃ e2, join kp2 = .error e2 :=
        fun kp2 hk => hall kp2 (List.mem_cons_of_mem kp hk)
      obtain ⟨kp0, e0, hlast, he0, hloop⟩ := ih (by simp) hall' (some e)
      refine ⟨kp0, e0, ?_, he0, ?_⟩
      · rw [List.getLast?_cons_cons]
        exact hlast
      · unfold tryJoinLoop
        rw [he]
        exact hloop

/--
C9: `joinGroupFromWelcome` tries exactly the stored key packages whose cipher
suite matches the Welcome (with private material available), candidates whose
KeyPackageRef matches a welcome secret first; it succeeds with the first
candidate the MLS `joinGroup` accepts and persists exactly that state; when
every candidate fails it returns the all-failed error carrying the last
candidate's error and persists nothing; with no candidate it fails
immediately and persists nothing.
-/
theorem joinGroupFromWelcome_spec (kps : List StoredKeyPackage) (w : WelcomeMsg)
    (join : StoredKeyPackage → Except (List Char) (List Nat)) :
    (∀ kp, kp ∈ prioritizedKeyPackages kps w ↔
       (kp ∈ kps ∧ kp.cipherSuite = w.cipherSuite ∧ kp.hasPrivate = true)) ∧
    (∀ (i j : Nat) (kpi kpj : StoredKeyPackage),
       (prioritizedKeyPackages kps w)[i]? = some kpi →
       (prioritizedKeyPackages kps w)[j]? = some kpj →
       hasMatchingSecret w kpi = false → hasMatchingSecret w kpj = true → j < i) ∧
    (∀ st, (joinGroupFromWelcome kps w join).1 = .ok st →
       ((joinGroupFromWelcome kps w join).2 = [st] ∧
        ∃ (k : Nat) (kp : StoredKeyPackage),
          (prioritizedKeyPackages kps w)[k]? = some kp ∧ join kp = .ok st ∧
          ∀ (i : Nat) (kp2 : StoredKeyPackage), i < k →
            (prioritizedKeyPackages kps w)[i]? = some kp2 →
            ∃ e, join kp2 = .error e)) ∧
    (candidatePackages kps w ≠ [] →
      (∀ kp, kp ∈ prioritizedKeyPackages kps w → ∃ e, join kp = .error e) →
      ∃ kp0 e, (prioritizedKeyPackages kps w).getLast? = some kp0 ∧
        join kp0 = .error e ∧
        joinGroupFromWelcome kps w join = (.error (.allFailed (some e)), [])) ∧
    (candidatePackages kps w = [] →
      joinGroupFromWelcome kps w join = (.error .noMatchingKeyPackage, [])) ∧
    (∀ err, (joinGroupFromWelcome kps w join).1 = .error err →
      (joinGroupFromWelcome kps w join).2 = []) := by
  have hmem : ∀ kp, kp ∈ prioritizedKeyPackages kps w ↔
      (kp ∈ kps ∧ kp.cipherSuite = w.cipherSuite ∧ kp.hasPrivate = true) := by
    intro kp
    unfold prioritizedKeyPackages
    rw [List.mem_append, List.mem_filter, List.mem_filter]
    unfold candidatePackages
    rw [List.mem_filter]
    constructor
    · rintro (⟨⟨hk, hc⟩, -⟩ | ⟨⟨hk, hc⟩, -⟩) <;>
        · simp only [Bool.and_eq_true, beq_iff_eq] at hc
          exact ⟨hk, hc.1, hc.2⟩
    · rintro ⟨hk, hc, hp⟩
      by_cases hms : hasMatchingSecret w kp = true
      · exact Or.inl ⟨⟨hk, by simp [hc, hp]⟩, hms⟩
      · refine Or.inr ⟨⟨hk, by simp [hc, hp]⟩, ?_⟩
        simp [hms]
  have hprio_nonempty : candidatePackages kps w ≠ [] →
      prioritizedKeyPackages kps w ≠ [] := by
    intro hne hcontra
    unfold prioritizedKeyPackages at hcontra
    rw [List.append_eq_nil] at hcontra
    obtain ⟨h1, h2⟩ := hcontra
    rw [List.filter_eq_nil_iff] at h1 h2
    apply hne
    rw [List.eq_nil_iff_forall_not_mem]
    intro kp hk
    by_cases hms : hasMatchingSecret w kp = true
    · exact h1 kp hk hms
    · exact h2 kp hk (by simp [hms])
  refine ⟨hmem, ?_, ?_, ?_, ?_, ?_⟩
  · intro i j kpi kpj hi hj hmi hmj
    unfold prioritizedKeyPackages at hi hj
    have hiA : ¬ i <
        ((candidatePackages kps w).filter (fun p => hasMatchingSecret w p)).length := by
      intro hlt
      rw [List.getElem?_append_left hlt] at hi
      have hmem2 := List.getElem?_mem hi
      rw [List.mem_filter] at hmem2
      rw [hmem2.2] at hmi
      exact Bool.noConfusion hmi
    have hjA : j <
        ((candidatePackages kps w).filter (fun p => hasMatchingSecret w p)).length := by
      by_contra hge
      rw [List.getElem?_append_right (by omega)] at hj
      have hmem2 := List.getElem?_mem hj
      rw [List.mem_filter] at hmem2
      have h2 := hmem2.2
      rw [hmj] at h2
      simp at h2
    omega
  · intro st hok
    unfold joinGroupFromWelcome at hok ⊢
    by_cases hc : candidatePackages kps w = []
    · rw [if_pos hc] at hok
      exact absurd hok (by simp)
    · rw [if_neg hc] at hok
      rw [if_neg hc]
      rcases htl : tryJoinLoop join (prioritizedKeyPackages kps w) none with ⟨fst, snd⟩
      cases fst with
      | some st0 =>
        rw [htl] at hok
        have hst : st0 = st := Except.ok.inj hok
        subst hst
        refine ⟨rfl, ?_⟩
        exact tryJoinLoop_ok join (prioritizedKeyPackages kps w) none st0 snd htl
      | none =>
        rw [htl] at hok
        exact Except.noConfusion hok
  · intro hc hall
    obtain ⟨kp0, e, hlast, he, hloop⟩ :=
      tryJoinLoop_all_error join (prioritizedKeyPackages kps w) (hprio_nonempty hc)
        hall none
    refine ⟨kp0, e, hlast, he, ?_⟩
    unfold joinGroupFromWelcome
    rw [if_neg hc, hloop]
  · intro hc
    unfold joinGroupFromWelcome
    rw [if_pos hc]
  · intro err herr
    unfold joinGroupFromWelcome at herr ⊢
    by_cases hc : candidatePackages kps w = []
    · rw [if_pos hc]
    · rw [if_neg hc] at herr ⊢
      rcases htl : tryJoinLoop join (prioritizedKeyPackages kps w) none with ⟨fst, snd⟩
      cases fst with
      | some st0 =>
        rw [htl] at herr
        exact Except.noConfusion herr
      | none => rfl

/-- Concrete key-package store for the C9 witness: a non-matching candidate,
a candidate whose ref matches a welcome secret, and a package of another
cipher suite. -/
def witnessKps : List StoredKeyPackage :=
  [⟨[1], 1, true⟩, ⟨[2], 1, true⟩, ⟨[3], 2, true⟩]

/-- Concrete Welcome for the C9 witness: suite 1, one secret for ref `[2]`. -/
def witnessWelcome : WelcomeMsg :=
  ⟨1, [[2]]⟩

/-- Concrete join oracle for the C9 witness: only ref `[2]` joins. -/
def witnessJoin (kp : StoredKeyPackage) : Except (List Char) (List Nat) :=
  if kp.keyPackageRef = [2] then .ok [7] else .error ['x']

/-- Witness for C9: the matching-ref candidate is tried first and wins; the
other-suite package is never a candidate; the joined state is persisted. -/
theorem joinGroupFromWelcome_spec_witness :
    (∀ kp, kp ∈ prioritizedKeyPackages witnessKps witnessWelcome ↔
       (kp ∈ witnessKps ∧ kp.cipherSuite = witnessWelcome.cipherSuite ∧
         kp.hasPrivate = true)) ∧
    prioritizedKeyPackages witnessKps witnessWelcome =
      [⟨[2], 1, true⟩, ⟨[1], 1, true⟩] ∧
    joinGroupFromWelcome witnessKps witnessWelcome witnessJoin = (.ok [7], [[7]]) :=
  ⟨(joinGroupFromWelcome_spec witnessKps witnessWelcome witnessJoin).1,
    by decide, by decide⟩

/-! ## C7: MarmotGroupData codec -/

/-- Modelled from the spec: one character of the lowercase hex class
`[0-9a-f]` used for admin pubkeys in the group-data extension (E4). -/
def isLowerHexDigit (c : Char) : Bool :=
  (48 ≤ c.toNat && c.toNat ≤ 57) || (97 ≤ c.toNat && c.toNat ≤ 102)

/-- Modelled from the spec: a 64-character lowercase hex pubkey (E4). -/
def isLowerHexKey (s : List Char) : Bool :=
  s.length == 64 && s.all isLowerHexDigit

/-- Does the pattern occur at the start of the list? (`String.startsWith`.) -/
def listStartsWith : List Char → List Char → Bool
  | [], _ => true
  | _ :: _, [] => false
  | p :: ps, c :: cs => p = c && listStartsWith ps cs

/-- Modelled from the spec: a relay URL must use the `wss://` or `ws://`
scheme. -/
def isValidRelayUrl (s : List Char) : Bool :=
  listStartsWith ("wss://".toList) s || listStartsWith ("ws://".toList) s

/-- Modelled from the spec: an image field is either null or holds exactly
`k` bytes. -/
def imageFieldOk (k : Nat) : Option (List Nat) → Bool
  | none => true
  | some b => b.length == k

/-- Modelled from the spec (E4): the Marmot group-data extension value.
`name`/`description` are UTF-8 byte strings; admin pubkeys are 64-char
lowercase hex; image fields are nullable fixed-size byte strings. -/
structure MarmotGroupData where
  version : Nat
  nostrGroupId : List Nat
  name : List Nat
  description : List Nat
  adminPubkeys : List (List Char)
  relays : List (List Char)
  imageHash : Option (List Nat)
  imageKey : Option (List Nat)
  imageNonce : Option (List Nat)
  deriving DecidableEq

/-- Big-endian 16-bit length prefix. -/
def writeU16 (n : Nat) : List Nat :=
  [n / 256 % 256, n % 256]

/-- Raw 32 bytes of a 64-char hex admin pubkey. -/
def encodeAdmin (a : List Char) : List Nat :=
  (hexToBytes a).getD []

/-- A relay URL as a 16-bit length prefix followed by its character codes. -/
def encodeRelay (r : List Char) : List Nat :=
  writeU16 r.length ++ r.map Char.toNat

/-- A nullable image field: length prefix 0 encodes null, otherwise the
length-prefixed bytes; this is what keeps null distinct from present bytes. -/
def writeImage : Option (List Nat) → List Nat
  | none => writeU16 0
  | some b => writeU16 b.length ++ b

/-- Modelled from the spec (4.2/E4): `encodeMarmotGroupData`. Validates
field shapes (error strings as in the repository's codec tests) and emits
the length-prefixed layout: version, 32-byte nostr group id, u16-prefixed
name and description, u16-counted admin pubkeys (32 raw bytes each),
u16-counted u16-prefixed relays, and three length-prefixed image fields. -/
def encodeMarmotGroupData (g : MarmotGroupData) : Except (List Char) (List Nat) :=
  if g.nostrGroupId.length ≠ 32 then
    .error ("nostr_group_id must be exactly 32 bytes".toList)
  else if g.adminPubkeys.all isLowerHexKey = false then
    .error ("Invalid admin public key format".toList)
  else if g.relays.all isValidRelayUrl = false then
    .error ("Invalid relay URL".toList)
  else if imageFieldOk 32 g.imageHash = false then
    .error ("image_hash must be null or exactly 32 bytes".toList)
  else if imageFieldOk 32 g.imageKey = false then
    .error ("image_key must be null or exactly 32 bytes".toList)
  else if imageFieldOk 12 g.imageNonce = false then
    .error ("image_nonce must be null or exactly 12 bytes".toList)
  else
    .ok (writeU16 g.version ++ (g.nostrGroupId ++
      (writeU16 g.name.length ++ (g.name ++
      (writeU16 g.description.length ++ (g.description ++
      (writeU16 g.adminPubkeys.length ++ ((g.adminPubkeys.map encodeAdmin).flatten ++
      (writeU16 g.relays.length ++ ((g.relays.map encodeRelay).flatten ++
      (writeImage g.imageHash ++ (writeImage g.imageKey ++
        writeImage g.imageNonce))))))))))))

/-- Read a big-endian u16. -/
def readU16 : List Nat → Except (List Char) (Nat × List Nat)
  | b0 :: b1 :: rest => .ok (b0 * 256 + b1, rest)
  | _ => .error ("Unexpected end of extension data".toList)

/-- Read exactly `n` bytes. -/
def readBytes (n : Nat) (l : List Nat) : Except (List Char) (List Nat × List Nat) :=
  if n ≤ l.length then .ok (l.take n, l.drop n)
  else .error ("Unexpected end of extension data".toList)

/-- Read a u16-length-prefixed byte string. -/
def readVar (l : List Nat) : Except (List Char) (List Nat × List Nat) :=
  match readU16 l with
  | .error e => .error e
  | .ok (n, r) => readBytes n r

/-- Read `n` admin pubkeys of 32 raw bytes each, rendered as lowercase hex. -/
def readAdmins : Nat → List Nat → Except (List Char) (List (List Char) × List Nat)
  | 0, l => .ok ([], l)
  | n + 1, l =>
    match readBytes 32 l with
    | .error e => .error e
    | .ok (b, r) =>
      match readAdmins n r with
      | .error e => .error e
      | .ok (as, r2) => .ok (bytesToHex b :: as, r2)

/-- Read `n` u16-length-prefixed relay URLs. -/
def readRelays : Nat → List Nat → Except (List Char) (List (List Char) × List Nat)
  | 0, l => .ok ([], l)
  | n + 1, l =>
    match readVar l with
    | .error e => .error e
    | .ok (b, r) =>
      match readRelays n r with
      | .error e => .error e
      | .ok (rs, r2) => .ok (b.map Char.ofNat :: rs, r2)

/-- Read a nullable image field: length 0 is null. -/
def readImage (l : List Nat) : Except (List Char) (Option (List Nat) × List Nat) :=
  match readU16 l with
  | .error e => .error e
  | .ok (n, r) =>
    if n = 0 then .ok (none, r)
    else
      match readBytes n r with
      | .error e => .error e
      | .ok (b, r2) => .ok (some b, r2)

/-- Modelled from the spec (4.2/E4): `decodeMarmotGroupData`. Rejects input
shorter than the 48-byte minimum (as in the repository's truncation test),
then reads the fields in layout order from wherever the slice begins. -/
def decodeMarmotGroupData (data : List Nat) : Except (List Char) MarmotGroupData :=
  if data.length < 48 then .error ("Extension data too short".toList)
  else
    match readU16 data with
    | .error e => .error e
    | .ok (version, r1) =>
      match readBytes 32 r1 with
      | .error e => .error e
      | .ok (gid, r2) =>
        match readVar r2 with
        | .error e => .error e
        | .ok (name, r3) =>
          match readVar r3 with
          | .error e => .error e
          | .ok (desc, r4) =>
            match readU16 r4 with
            | .error e => .error e
            | .ok (nAdmins, r5) =>
              match readAdmins nAdmins r5 with
              | .error e => .error e
              | .ok (admins, r6) =>
                match readU16 r6 with
                | .error e => .error e
                | .ok (nRelays, r7) =>
                  match readRelays nRelays r7 with
                  | .error e => .error e
                  | .ok (relays, r8) =>
                    match readImage r8 with
                    | .error e => .error e
                    | .ok (ih, r9) =>
                      match readImage r9 with
                      | .error e => .error e
                      | .ok (ik, r10) =>
                        match readImage r10 with
                        | .error e => .error e
                        | .ok (inonce, _) =>
                          .ok ⟨version, gid, name, desc, admins, relays,
                            ih, ik, inonce⟩

/-- A structurally valid group-data value: field sizes fit their prefixes,
bytes are bytes, admin keys are 64-char lowercase hex, relays use a
websocket scheme, and the image fields are all null or exactly
(32, 32, 12) bytes. -/
def ValidGroupData (g : MarmotGroupData) : Prop :=
  g.version < 65536 ∧
  g.nostrGroupId.length = 32 ∧ (∀ b ∈ g.nostrGroupId, b < 256) ∧
  g.name.length < 65536 ∧ (∀ b ∈ g.name, b < 256) ∧
  g.description.length < 65536 ∧ (∀ b ∈ g.description, b < 256) ∧
  g.adminPubkeys.length < 65536 ∧ (∀ a ∈ g.adminPubkeys, isLowerHexKey a = true) ∧
  g.relays.length < 65536 ∧
  (∀ r ∈ g.relays, isValidRelayUrl r = true ∧ r.length < 65536 ∧
    ∀ c ∈ r, c.toNat < 256) ∧
  ((g.imageHash = none ∧ g.imageKey = none ∧ g.imageNonce = none) ∨
    ((∃ b, g.imageHash = some b ∧ b.length = 32) ∧
     (∃ b, g.imageKey = some b ∧ b.length = 32) ∧
     (∃ b, g.imageNonce = some b ∧ b.length = 12)))

instance (g : MarmotGroupData) : Decidable (ValidGroupData g) := by
  unfold ValidGroupData
  infer_instance

/-! ### Reader/writer step lemmas -/

theorem readU16_writeU16 (n : Nat) (rest : List Nat) (h : n < 65536) :
    readU16 (writeU16 n ++ rest) = .ok (n, rest) := by
  simp only [writeU16, List.cons_append, List.nil_append, readU16]
  have e : n / 256 % 256 * 256 + n % 256 = n := by omega
  rw [e]

theorem readBytes_append (b rest : List Nat) :
    readBytes b.length (b ++ rest) = .ok (b, rest) := by
  unfold readBytes
  rw [if_pos (by simp [List.length_append])]
  rw [List.take_left, List.drop_left]

theorem readVar_encode (b rest : List Nat) (h : b.length < 65536) :
    readVar ((writeU16 b.length ++ b) ++ rest) = .ok (b, rest) := by
  rw [List.append_assoc]
  unfold readVar
  rw [readU16_writeU16 b.length (b ++ rest) h]
  exact readBytes_append b rest

theorem lower_of_isLowerHexDigit {c : Char} (h : isLowerHexDigit c = true) :
    c.toLower = c := by
  simp only [isLowerHexDigit, Bool.or_eq_true, Bool.and_eq_true, decide_eq_true_eq] at h
  simp only [Char.toLower]
  rw [if_neg (by omega)]

theorem hexDigit_of_lower {c : Char} (h : isLowerHexDigit c = true) :
    isHexDigitChar c = true := by
  simp only [isLowerHexDigit, Bool.or_eq_true, Bool.and_eq_true, decide_eq_true_eq] at h
  simp only [isHexDigitChar, Bool.or_eq_true, Bool.and_eq_true, decide_eq_true_eq]
  omega

/-- The raw 32 bytes of a lowercase hex key render back to the key. -/
theorem encodeAdmin_spec {a : List Char} (h : isLowerHexKey a = true) :
    (encodeAdmin a).length = 32 ∧ bytesToHex (encodeAdmin a) = a := by
  simp only [isLowerHexKey, Bool.and_eq_true, beq_iff_eq] at h
  obtain ⟨hlen, hall⟩ := h
  have hallhex : a.all isHexDigitChar = true := by
    simp only [List.all_eq_true] at hall ⊢
    exact fun c hc => hexDigit_of_lower (hall c hc)
  obtain ⟨l, hl, hllen, hlhex⟩ := hexToBytes_ok a hallhex (by omega)
  have he : encodeAdmin a = l := by simp [encodeAdmin, hl]
  have hmap : a.map Char.toLower = a := by
    simp only [List.all_eq_true] at hall
    exact List.map_congr_left (fun c hc => lower_of_isLowerHexDigit (hall c hc)) |>.trans
      (List.map_id a)
  refine ⟨?_, ?_⟩
  · rw [he, hllen, hlen]
  · rw [he, hlhex, hmap]

theorem readAdmins_encode (as : List (List Char)) (rest : List Nat)
    (h : ∀ a ∈ as, isLowerHexKey a = true) :
    readAdmins as.length ((as.map encodeAdmin).flatten ++ rest) = .ok (as, rest) := by
  induction as with
  | nil => rfl
  | cons a tl ih =>
    have ha := h a (List.mem_cons_self a tl)
    obtain ⟨halen, hahex⟩ := encodeAdmin_spec ha
    have htl := ih (fun x hx => h x (List.mem_cons_of_mem a hx))
    simp only [List.map_cons, List.flatten_cons, List.append_assoc, List.length_cons]
    show readAdmins (tl.length + 1) (encodeAdmin a ++ ((tl.map encodeAdmin).flatten ++ rest)) = _
    rw [readAdmins, ← halen, readBytes_append]
    dsimp only
    rw [htl]
    dsimp only
    rw [hahex]

theorem readRelays_encode (rs : List (List Char)) (rest : List Nat)
    (h : ∀ r ∈ rs, r.length < 65536) :
    readRelays rs.length ((rs.map encodeRelay).flatten ++ rest) = .ok (rs, rest) := by
  induction rs with
  | nil => rfl
  | cons r tl ih =>
    have hr := h r (List.mem_cons_self r tl)
    have htl := ih (fun x hx => h x (List.mem_cons_of_mem r hx))
    simp only [List.map_cons, List.flatten_cons, List.append_assoc, List.length_cons]
    show readRelays (tl.length + 1)
        (encodeRelay r ++ ((tl.map encodeRelay).flatten ++ rest)) = _
    have hl : r.length = (r.map Char.toNat).length := by simp
    have hv : readVar (encodeRelay r ++ ((tl.map encodeRelay).flatten ++ rest)) =
        .ok (r.map Char.toNat, (tl.map encodeRelay).flatten ++ rest) := by
      unfold encodeRelay
      rw [hl]
      exact readVar_encode (r.map Char.toNat) _ (by rw [← hl]; exact hr)
    rw [readRelays, hv]
    dsimp only
    rw [htl]
    dsimp only
    have hid : List.map Char.ofNat (List.map Char.toNat r) = r := by
      rw [List.map_map]
      exact (List.map_congr_left (fun c _ => Char.ofNat_toNat c)).trans (List.map_id r)
    rw [hid]

theorem readImage_encode (img : Option (List Nat)) (rest : List Nat)
    (h : img = none ∨ ∃ b, img = some b ∧ 0 < b.length ∧ b.length < 65536) :
    readImage (writeImage img ++ rest) = .ok (img, rest) := by
  rcases h with h | ⟨b, hb, hpos, hlt⟩
  · subst h
    simp only [writeImage, readImage]
    rw [readU16_writeU16 0 rest (by omega)]
    dsimp only
    rw [if_pos rfl]
  · subst hb
    simp only [writeImage, readImage, List.append_assoc]
    rw [readU16_writeU16 b.length (b ++ rest) hlt]
    dsimp only
    rw [if_neg (show ¬ b.length = 0 by omega), readBytes_append]

/-- Modelled from the spec: C7 — for every valid group-data value the codec
round-trips exactly (including the null-image distinction), and decoding
also succeeds on the same bytes sliced out of any surrounding envelope
(byteOffset robustness). -/
theorem marmot_group_data_roundtrip (g : MarmotGroupData) (hg : ValidGroupData g) :
    ∃ bytes : List Nat,
      encodeMarmotGroupData g = .ok bytes ∧
      decodeMarmotGroupData bytes = .ok g ∧
      ∀ pre suf : List Nat,
        decodeMarmotGroupData (((pre ++ (bytes ++ suf)).drop pre.length).take bytes.length) =
          .ok g := by
  obtain ⟨hver, hgid, -, hname, -, hdesc, -, hnadm, hadm, hnrel, hrel, himg⟩ := hg
  have himgH : g.imageHash = none ∨
      ∃ b, g.imageHash = some b ∧ 0 < b.length ∧ b.length < 65536 := by
    rcases himg with ⟨h1, h2, h3⟩ | ⟨⟨b, hb, hbl⟩, -, -⟩
    · exact Or.inl h1
    · exact Or.inr ⟨b, hb, by omega⟩
  have himgK : g.imageKey = none ∨
      ∃ b, g.imageKey = some b ∧ 0 < b.length ∧ b.length < 65536 := by
    rcases himg with ⟨h1, h2, h3⟩ | ⟨-, ⟨b, hb, hbl⟩, -⟩
    · exact Or.inl h2
    · exact Or.inr ⟨b, hb, by omega⟩
  have himgN : g.imageNonce = none ∨
      ∃ b, g.imageNonce = some b ∧ 0 < b.length ∧ b.length < 65536 := by
    rcases himg with ⟨h1, h2, h3⟩ | ⟨-, -, ⟨b, hb, hbl⟩⟩
    · exact Or.inl h3
    · exact Or.inr ⟨b, hb, by omega⟩
  have hokH : imageFieldOk 32 g.imageHash = true := by
    rcases himg with ⟨h1, -, -⟩ | ⟨⟨b, hb, hbl⟩, -, -⟩
    · rw [h1]; rfl
    · rw [hb]; simp [imageFieldOk, hbl]
  have hokK : imageFieldOk 32 g.imageKey = true := by
    rcases himg with ⟨-, h2, -⟩ | ⟨-, ⟨b, hb, hbl⟩, -⟩
    · rw [h2]; rfl
    · rw [hb]; simp [imageFieldOk, hbl]
  have hokN : imageFieldOk 12 g.imageNonce = true := by
    rcases himg with ⟨-, -, h3⟩ | ⟨-, -, ⟨b, hb, hbl⟩⟩
    · rw [h3]; rfl
    · rw [hb]; simp [imageFieldOk, hbl]
  have hadmAll : g.adminPubkeys.all isLowerHexKey = true := by
    simp only [List.all_eq_true]
    exact fun a ha => hadm a ha
  have hrelAll : g.relays.all isValidRelayUrl = true := by
    simp only [List.all_eq_true]
    exact fun r hr => (hrel r hr).1
  set bytes : List Nat := writeU16 g.version ++ (g.nostrGroupId ++
      (writeU16 g.name.length ++ (g.name ++
      (writeU16 g.description.length ++ (g.description ++
      (writeU16 g.adminPubkeys.length ++ ((g.adminPubkeys.map encodeAdmin).flatten ++
      (writeU16 g.relays.length ++ ((g.relays.map encodeRelay).flatten ++
      (writeImage g.imageHash ++ (writeImage g.imageKey ++
        writeImage g.imageNonce))))))))))) with hbytes
  have henc : encodeMarmotGroupData g = .ok bytes := by
    unfold encodeMarmotGroupData
    rw [if_neg (by omega), if_neg (by rw [hadmAll]; simp),
      if_neg (by rw [hrelAll]; simp), if_neg (by rw [hokH]; simp),
      if_neg (by rw [hokK]; simp), if_neg (by rw [hokN]; simp)]
  have hwimg : ∀ img : Option (List Nat), 2 ≤ (writeImage img).length := by
    intro img
    cases img with
    | none => simp [writeImage, writeU16]
    | some b => simp [writeImage, writeU16]
  have hlen48 : ¬ bytes.length < 48 := by
    rw [hbytes]
    simp only [List.length_append, writeU16, List.length_cons, List.length_nil]
    have h1 := hwimg g.imageHash
    have h2 := hwimg g.imageKey
    have h3 := hwimg g.imageNonce
    omega
  have hdec : decodeMarmotGroupData bytes = .ok g := by
    unfold decodeMarmotGroupData
    rw [if_neg hlen48, hbytes]
    rw [readU16_writeU16 g.version _ hver]
    dsimp only
    rw [show (32 : Nat) = g.nostrGroupId.length from hgid.symm, readBytes_append]
    dsimp only
    rw [← List.append_assoc (writeU16 g.name.length) g.name,
      readVar_encode g.name _ hname]
    dsimp only
    rw [← List.append_assoc (writeU16 g.description.length) g.description,
      readVar_encode g.description _ hdesc]
    dsimp only
    rw [readU16_writeU16 g.adminPubkeys.length _ hnadm]
    dsimp only
    rw [readAdmins_encode g.adminPubkeys _ hadm]
    dsimp only
    rw [readU16_writeU16 g.relays.length _ hnrel]
    dsimp only
    rw [readRelays_encode g.relays _ (fun r hr => (hrel r hr).2.1)]
    dsimp only
    rw [readImage_encode g.imageHash _ himgH]
    dsimp only
    rw [readImage_encode g.imageKey _ himgK]
    dsimp only
    rw [← List.append_nil (writeImage g.imageNonce),
      readImage_encode g.imageNonce [] himgN]
  refine ⟨bytes, henc, hdec, ?_⟩
  intro pre suf
  rw [List.drop_left, List.take_left]
  exact hdec

/-- Concrete valid group data for the C7 witness. -/
def c7Group : MarmotGroupData where
  version := 1
  nostrGroupId := List.replicate 32 1
  name := [84, 101, 115, 116]
  description := []
  adminPubkeys := [List.replicate 64 'a']
  relays := [("wss://r.example".toList)]
  imageHash := some (List.replicate 32 2)
  imageKey := some (List.replicate 32 3)
  imageNonce := some (List.replicate 12 4)

/-- Witness for C7 at a concrete group-data value. -/
theorem marmot_group_data_roundtrip_witness :
    ValidGroupData c7Group ∧
    (∃ bytes : List Nat,
      encodeMarmotGroupData c7Group = .ok bytes ∧
      decodeMarmotGroupData bytes = .ok c7Group ∧
      ∀ pre suf : List Nat,
        decodeMarmotGroupData
            (((pre ++ (bytes ++ suf)).drop pre.length).take bytes.length) =
          .ok c7Group) :=
  ⟨by decide, marmot_group_data_roundtrip c7Group (by decide)⟩

end Marmot
